import Mathlib

/-!
Shallow embedding of the Discogs vinyl sorter mobile app's core logic:
format classification (isLp33), sort-key normalization (makeSortKeys),
ordering (sortRows), the section-label comparator, plain-text export,
the paginated fetcher (iterateCollection), the bounded retry wrapper
(apiGet) and the marketplace-stats lookup, together with theorems
checking the natural-language specification against those definitions.

Modelling conventions:
* JavaScript `Array.prototype.sort` (ES2019 and later) is stable and, for
  a consistent comparator, returns the unique stable sorted permutation;
  it is modelled by `stableSortBy`, a stable insertion sort parameterised
  by the comparator's strict "must come earlier" test `lt a b`, which is
  `cmp a b < 0` for a numeric comparator `cmp`.
* `String.prototype.localeCompare` is modelled as code-point
  lexicographic comparison (`lexCmp`); the spec requires string
  comparison to be a consistent total order.
* JavaScript numbers are modelled as `ℚ` (prices) and `ℤ`/`ℕ` (years,
  counts, statuses).  Comparators that return arithmetic differences are
  modelled sign-faithfully.
* Strings are processed on their underlying character lists with
  ASCII-faithful `trim` / `toLowerCase` / `toUpperCase` models.
-/

namespace Vinyl

/-- ASCII whitespace test backing the `String.prototype.trim` model. -/
def isWsChar (c : Char) : Bool :=
  c = ' ' || c = '\t' || c = '\n' || c = '\r'

/-- Model of `String.prototype.trim` on character lists. -/
def trimL (l : List Char) : List Char :=
  ((l.dropWhile isWsChar).reverse.dropWhile isWsChar).reverse

/-- ASCII model of `String.prototype.toLowerCase` on one character. -/
def asciiLower (c : Char) : Char :=
  if 'A' ≤ c ∧ c ≤ 'Z' then Char.ofNat (c.toNat + 32) else c

/-- ASCII model of `String.prototype.toUpperCase` on one character. -/
def asciiUpper (c : Char) : Char :=
  if 'a' ≤ c ∧ c ≤ 'z' then Char.ofNat (c.toNat - 32) else c

/-- Lowercase a character list. -/
def lowerL (l : List Char) : List Char := l.map asciiLower

/-- `String.prototype.trim`, packaged on strings. -/
def trimStr (s : String) : String := ⟨trimL s.data⟩

/-- `String.prototype.toLowerCase`, packaged on strings (ASCII model). -/
def lowerStr (s : String) : String := ⟨lowerL s.data⟩

/-- Code-point lexicographic comparison, the model of
`String.prototype.localeCompare` (sign-faithful: -1/0/1). -/
def lexCmp : List Char → List Char → Int
  | [], [] => 0
  | [], _ :: _ => -1
  | _ :: _, [] => 1
  | a :: as, b :: bs => if a < b then -1 else if b < a then 1 else lexCmp as bs

theorem lexCmp_eq_zero_iff : ∀ xs ys : List Char, lexCmp xs ys = 0 ↔ xs = ys := by
  intro xs
  induction xs with
  | nil => intro ys; cases ys <;> simp [lexCmp]
  | cons a as ih =>
    intro ys
    cases ys with
    | nil => simp [lexCmp]
    | cons b bs =>
      by_cases hab : a < b
      · have hne : a ≠ b := ne_of_lt hab
        simp [lexCmp, hab, hne]
      · by_cases hba : b < a
        · have hne : a ≠ b := (ne_of_lt hba).symm
          simp [lexCmp, hab, hba, hne]
        · have heq : a = b := le_antisymm (not_lt.mp hba) (not_lt.mp hab)
          simp [lexCmp, hab, hba, heq, ih bs]

theorem lexCmp_neg : ∀ xs ys : List Char, lexCmp xs ys = - lexCmp ys xs := by
  intro xs
  induction xs with
  | nil => intro ys; cases ys <;> simp [lexCmp]
  | cons a as ih =>
    intro ys
    cases ys with
    | nil => simp [lexCmp]
    | cons b bs =>
      by_cases hab : a < b
      · have hba : ¬ b < a := asymm hab
        simp [lexCmp, hab, hba]
      · by_cases hba : b < a
        · simp [lexCmp, hab, hba]
        · simp [lexCmp, hab, hba, ih bs]

theorem lexCmp_le_trans :
    ∀ xs ys zs : List Char, lexCmp xs ys ≤ 0 → lexCmp ys zs ≤ 0 → lexCmp xs zs ≤ 0 := by
  intro xs
  induction xs with
  | nil => intro ys zs _ _; cases zs <;> simp [lexCmp]
  | cons a as ih =>
    intro ys zs h1 h2
    cases ys with
    | nil => simp [lexCmp] at h1
    | cons b bs =>
      cases zs with
      | nil => simp [lexCmp] at h2
      | cons c cs =>
        by_cases hab : a < b
        · by_cases hbc : b < c
          · have hac : a < c := lt_trans hab hbc
            simp [lexCmp, hac]
          · by_cases hcb : c < b
            · simp [lexCmp, hbc, hcb] at h2
            · have hbc' : b = c := le_antisymm (not_lt.mp hcb) (not_lt.mp hbc)
              have hac : a < c := hbc' ▸ hab
              simp [lexCmp, hac]
        · by_cases hba : b < a
          · simp [lexCmp, hab, hba] at h1
          · have hab' : a = b := le_antisymm (not_lt.mp hba) (not_lt.mp hab)
            subst hab'
            by_cases hac : a < c
            · simp [lexCmp, hac]
            · by_cases hca : c < a
              · simp [lexCmp, hac, hca] at h2
              · simp [lexCmp, hac, hca] at h1 h2 ⊢
                exact ih bs cs h1 h2

/-- Removes the first occurrence of character `c`; the model of
`String.prototype.replace` with a one-character plain-string pattern. -/
def replaceFirst (c : Char) : List Char → List Char
  | [] => []
  | x :: xs => if x = c then xs else x :: replaceFirst c xs

/-- `text.startsWith(pat)` on character lists (`startsW pat text`). -/
def startsW : List Char → List Char → Bool
  | [], _ => true
  | _ :: _, [] => false
  | p :: ps, c :: cs => p = c && startsW ps cs

/-- `text.endsWith(pat)` on character lists (`endsW pat text`). -/
def endsW (pat text : List Char) : Bool :=
  startsW pat.reverse text.reverse

/-- `text.includes(pat)` on character lists (`containsSub pat text`). -/
def containsSub (pat : List Char) : List Char → Bool
  | [] => startsW pat []
  | c :: cs => startsW pat (c :: cs) || containsSub pat cs

/-!
## Stable sort model

`stableSortBy lt` is a stable insertion sort: a new element `a` (earlier
in the input) is inserted before the first already-placed element `b`
with `lt b a = false`, so equal elements keep their input order, and for
a consistent comparator the result is the stable sorted permutation that
ES2019 `Array.prototype.sort` must return.
-/

/-- Insert `a` into `l`, passing exactly the elements that must come
strictly before it. -/
def insertStable (lt : α → α → Bool) (a : α) : List α → List α
  | [] => [a]
  | b :: l => if lt b a then b :: insertStable lt a l else a :: b :: l

/-- Stable sort by the strict comparator test `lt`. -/
def stableSortBy (lt : α → α → Bool) : List α → List α
  | [] => []
  | a :: l => insertStable lt a (stableSortBy lt l)

theorem perm_insertStable (lt : α → α → Bool) (a : α) :
    ∀ l : List α, List.Perm (insertStable lt a l) (a :: l) := by
  intro l
  induction l with
  | nil => exact List.Perm.refl _
  | cons b t ih =>
    by_cases h : lt b a = true
    · have step : insertStable lt a (b :: t) = b :: insertStable lt a t := by
        simp [insertStable, h]
      rw [step]
      exact (ih.cons b).trans (List.Perm.swap a b t)
    · have h' : lt b a = false := by
        cases hx : lt b a
        · rfl
        · exact absurd hx h
      have step : insertStable lt a (b :: t) = a :: b :: t := by
        simp [insertStable, h']
      rw [step]

theorem perm_stableSortBy (lt : α → α → Bool) :
    ∀ l : List α, List.Perm (stableSortBy lt l) l := by
  intro l
  induction l with
  | nil => exact List.Perm.refl _
  | cons a t ih =>
    have step : stableSortBy lt (a :: t) = insertStable lt a (stableSortBy lt t) := rfl
    rw [step]
    exact (perm_insertStable lt a _).trans (ih.cons a)

theorem mem_stableSortBy {lt : α → α → Bool} {l : List α} {x : α} :
    x ∈ stableSortBy lt l ↔ x ∈ l :=
  (perm_stableSortBy lt l).mem_iff

theorem pairwise_insertStable (lt : α → α → Bool) (a : α) :
    ∀ s : List α,
      s.Pairwise (fun x y => lt y x = false) →
      (∀ b ∈ s, lt b a = true → lt a b = false) →
      (∀ b ∈ s, ∀ c ∈ s, lt b a = false → lt c b = false → lt c a = false) →
      (insertStable lt a s).Pairwise (fun x y => lt y x = false) := by
  intro s
  induction s with
  | nil =>
    intro _ _ _
    simp [insertStable]
  | cons b t ih =>
    intro hs hcons htrans
    rw [List.pairwise_cons] at hs
    by_cases hba : lt b a = true
    · have h1 : ∀ y ∈ insertStable lt a t, lt y b = false := by
        intro y hy
        have hy' : y ∈ a :: t := (perm_insertStable lt a t).mem_iff.mp hy
        rcases List.mem_cons.mp hy' with h | h
        · subst h; exact hcons b (List.mem_cons_self b t) hba
        · exact hs.1 y h
      have h2 : (insertStable lt a t).Pairwise (fun x y => lt y x = false) := by
        refine ih hs.2 ?_ ?_
        · intro x hx hxa
          exact hcons x (List.mem_cons_of_mem b hx) hxa
        · intro x hx y hy hxa hyx
          exact htrans x (List.mem_cons_of_mem b hx) y (List.mem_cons_of_mem b hy) hxa hyx
      simp only [insertStable, hba, if_pos]
      exact List.pairwise_cons.mpr ⟨h1, h2⟩
    · have hba' : lt b a = false := by
        cases h : lt b a
        · rfl
        · exact absurd h hba
      have h1 : ∀ y ∈ b :: t, lt y a = false := by
        intro y hy
        rcases List.mem_cons.mp hy with h | h
        · subst h; exact hba'
        · exact htrans b (List.mem_cons_self b t) y (List.mem_cons_of_mem b h) hba' (hs.1 y h)
      simp only [insertStable, hba', Bool.false_eq_true, if_neg, not_false_iff]
      exact List.pairwise_cons.mpr ⟨h1, List.pairwise_cons.mpr hs⟩

theorem pairwise_stableSortBy (lt : α → α → Bool) :
    ∀ l : List α,
      (∀ a ∈ l, ∀ b ∈ l, lt a b = true → lt b a = false) →
      (∀ a ∈ l, ∀ b ∈ l, ∀ c ∈ l, lt b a = false → lt c b = false → lt c a = false) →
      (stableSortBy lt l).Pairwise (fun x y => lt y x = false) := by
  intro l
  induction l with
  | nil => intro _ _; simp [stableSortBy]
  | cons a t ih =>
    intro hcons htrans
    have hmem : ∀ x ∈ stableSortBy lt t, x ∈ a :: t := by
      intro x hx
      exact List.mem_cons_of_mem a (mem_stableSortBy.mp hx)
    refine pairwise_insertStable lt a (stableSortBy lt t) ?_ ?_ ?_
    · refine ih ?_ ?_
      · intro x hx y hy h
        exact hcons x (List.mem_cons_of_mem a hx) y (List.mem_cons_of_mem a hy) h
      · intro x hx y hy z hz h1 h2
        exact htrans x (List.mem_cons_of_mem a hx) y (List.mem_cons_of_mem a hy)
          z (List.mem_cons_of_mem a hz) h1 h2
    · intro b hb hba
      exact hcons b (hmem b hb) a (List.mem_cons_self a t) hba
    · intro b hb c hc h1 h2
      exact htrans a (List.mem_cons_self a t) b (hmem b hb) c (hmem c hc) h1 h2

theorem sublist_insertStable (lt : α → α → Bool) (x : α) :
    ∀ {t s : List α}, List.Sublist s t → List.Sublist s (insertStable lt x t) := by
  intro t
  induction t with
  | nil =>
    intro s hs
    cases hs
    simp [insertStable]
  | cons c t' ih =>
    intro s hs
    by_cases h : lt c x = true
    · simp only [insertStable, h, if_pos]
      cases hs with
      | cons _ h' => exact (ih h').cons c
      | cons₂ _ h' => exact (ih h').cons₂ c
    · have h' : lt c x = false := by
        cases hcx : lt c x
        · rfl
        · exact absurd hcx h
      simp only [insertStable, h', Bool.false_eq_true, if_neg, not_false_iff]
      exact hs.cons x

theorem pair_sublist_insertStable (lt : α → α → Bool) {a b : α}
    (hba : lt b a = false) :
    ∀ {s : List α}, List.Sublist [b] s → List.Sublist [a, b] (insertStable lt a s) := by
  intro s
  induction s with
  | nil => intro h; cases h
  | cons c s' ih =>
    intro h
    by_cases hca : lt c a = true
    · simp only [insertStable, hca, if_pos]
      cases h with
      | cons _ h' => exact (ih h').cons c
      | cons₂ _ h' =>
        rw [hba] at hca
        cases hca
    · have hca' : lt c a = false := by
        cases hx : lt c a
        · rfl
        · exact absurd hx hca
      simp only [insertStable, hca', Bool.false_eq_true, if_neg, not_false_iff]
      exact h.cons₂ a

theorem pair_sublist_stableSortBy (lt : α → α → Bool) {a b : α} {l : List α}
    (h : List.Sublist [a, b] l) (hba : lt b a = false) :
    List.Sublist [a, b] (stableSortBy lt l) := by
  induction l with
  | nil => cases h
  | cons x t ih =>
    cases h with
    | cons _ h' =>
      exact sublist_insertStable lt x (ih h')
    | cons₂ _ h' =>
      have hb : b ∈ stableSortBy lt t := mem_stableSortBy.mpr (h'.subset (List.mem_cons_self b []))
      exact pair_sublist_insertStable lt hba (List.singleton_sublist.mpr hb)

theorem eq_of_perm_of_pairwise {R : α → α → Prop} :
    ∀ {l₁ l₂ : List α}, List.Perm l₁ l₂ → l₁.Pairwise R → l₂.Pairwise R →
      (∀ a ∈ l₁, ∀ b ∈ l₁, R a b → R b a → a = b) → l₁ = l₂ := by
  intro l₁
  induction l₁ with
  | nil =>
    intro l₂ hp _ _ _
    exact hp.nil_eq
  | cons a t₁ ih =>
    intro l₂ hp h₁ h₂ hanti
    cases l₂ with
    | nil => exact absurd hp.eq_nil (by simp)
    | cons b t₂ =>
      have hab : a = b := by
        by_contra hne
        have ha2 : a ∈ b :: t₂ := hp.mem_iff.mp (List.mem_cons_self a t₁)
        have hat2 : a ∈ t₂ := by
          rcases List.mem_cons.mp ha2 with h | h
          · exact absurd h hne
          · exact h
        have hb1 : b ∈ a :: t₁ := hp.symm.mem_iff.mp (List.mem_cons_self b t₂)
        have hbt1 : b ∈ t₁ := by
          rcases List.mem_cons.mp hb1 with h | h
          · exact absurd h.symm hne
          · exact h
        have hRab : R a b := (List.pairwise_cons.mp h₁).1 b hbt1
        have hRba : R b a := (List.pairwise_cons.mp h₂).1 a hat2
        exact hne (hanti a (List.mem_cons_self a t₁) b hb1 hRab hRba)
      subst hab
      have hp' : List.Perm t₁ t₂ := hp.cons_inv
      have ht : t₁ = t₂ := by
        refine ih hp' (List.pairwise_cons.mp h₁).2 (List.pairwise_cons.mp h₂).2 ?_
        intro x hx y hy hxy hyx
        exact hanti x (List.mem_cons_of_mem a hx) y (List.mem_cons_of_mem a hy) hxy hyx
      rw [ht]

/-!
## Comparator algebra

Comparators that return sign values are combined level-by-level; the
`IsCmp` bundle records the three facts every level of a well-behaved
lexicographic comparator satisfies.
-/

/-- A sign-valued comparator that is antisymmetric, substitutive at ties
and transitive at `≤ 0`. -/
structure IsCmp (c : α → α → Int) : Prop where
  sym : ∀ a b, c a b = - c b a
  tieSubst : ∀ a b, c a b = 0 → ∀ d, c a d = c b d
  leTrans : ∀ a b d, c a b ≤ 0 → c b d ≤ 0 → c a d ≤ 0

/-- Combine two comparators lexicographically: the second breaks the
first one's ties. -/
def cmpThen (c₁ c₂ : α → α → Int) : α → α → Int :=
  fun a b => if c₁ a b = 0 then c₂ a b else c₁ a b

theorem isCmp_intKey (k : α → Int) : IsCmp (fun a b => k a - k b) := by
  refine ⟨?_, ?_, ?_⟩
  · intro a b; ring
  · intro a b h d
    have : k a = k b := by omega
    rw [this]
  · intro a b d h1 h2; omega

theorem isCmp_strKey (k : α → List Char) : IsCmp (fun a b => lexCmp (k a) (k b)) := by
  refine ⟨?_, ?_, ?_⟩
  · intro a b; exact lexCmp_neg (k a) (k b)
  · intro a b h d
    have : k a = k b := (lexCmp_eq_zero_iff (k a) (k b)).mp h
    rw [this]
  · intro a b d h1 h2
    exact lexCmp_le_trans (k a) (k b) (k d) h1 h2

theorem isCmp_cmpThen {c₁ c₂ : α → α → Int} (h₁ : IsCmp c₁) (h₂ : IsCmp c₂) :
    IsCmp (cmpThen c₁ c₂) := by
  refine ⟨?_, ?_, ?_⟩
  · intro a b
    by_cases e : c₁ a b = 0
    · have e' : c₁ b a = 0 := by
        have := h₁.sym a b
        omega
      simp [cmpThen, e, e', h₂.sym a b]
    · have e' : ¬ c₁ b a = 0 := by
        have := h₁.sym a b
        omega
      simp [cmpThen, e, e', h₁.sym a b]
  · intro a b hab d
    by_cases e : c₁ a b = 0
    · rw [cmpThen, if_pos e] at hab
      have hc1 : c₁ a d = c₁ b d := h₁.tieSubst a b e d
      have hc2 : c₂ a d = c₂ b d := h₂.tieSubst a b hab d
      simp [cmpThen, hc1, hc2]
    · rw [cmpThen, if_neg e] at hab
      exact absurd hab e
  · intro a b d hab hbd
    by_cases e1 : c₁ a b = 0
    · by_cases e2 : c₁ b d = 0
      · have had : c₁ a d = 0 := by
          rw [h₁.tieSubst a b e1 d]; exact e2
        rw [cmpThen, if_pos e1] at hab
        rw [cmpThen, if_pos e2] at hbd
        rw [cmpThen, if_pos had]
        exact h₂.leTrans a b d hab hbd
      · have hbd' : c₁ b d < 0 := by
          rw [cmpThen, if_neg e2] at hbd
          omega
        have had : c₁ a d < 0 := by
          rw [h₁.tieSubst a b e1 d]; exact hbd'
        rw [cmpThen, if_neg (by omega : ¬ c₁ a d = 0)]
        omega
    · have hab' : c₁ a b < 0 := by
        rw [cmpThen, if_neg e1] at hab
        omega
      by_cases e2 : c₁ b d = 0
      · have had : c₁ a d < 0 := by
          have hsub : c₁ d b = 0 := by
            have := h₁.sym b d
            omega
          have : c₁ d a = c₁ b a := h₁.tieSubst d b hsub a
          have hba : c₁ b a > 0 := by
            have := h₁.sym a b
            omega
          have hda : c₁ d a > 0 := by omega
          have := h₁.sym a d
          omega
        rw [cmpThen, if_neg (by omega : ¬ c₁ a d = 0)]
        omega
      · have hbd' : c₁ b d < 0 := by
          rw [cmpThen, if_neg e2] at hbd
          omega
        have hle : c₁ a d ≤ 0 := h₁.leTrans a b d (by omega) (by omega)
        have had : c₁ a d < 0 := by
          rcases lt_or_eq_of_le hle with h | h
          · exact h
          · exfalso
            have hsub : c₁ a b = c₁ d b := h₁.tieSubst a d h b
            have : c₁ d b > 0 := by
              have := h₁.sym b d
              omega
            omega
        rw [cmpThen, if_neg (by omega : ¬ c₁ a d = 0)]
        omega

/-- The strict "must come earlier" test of a sign-valued comparator. -/
def cmpLt (c : α → α → Int) : α → α → Bool :=
  fun a b => decide (c a b < 0)

theorem cmpLt_cons {c : α → α → Int} (h : IsCmp c) :
    ∀ a b, cmpLt c a b = true → cmpLt c b a = false := by
  intro a b hab
  simp only [cmpLt, decide_eq_true_eq] at hab
  simp only [cmpLt, decide_eq_false_iff_not, not_lt]
  have := h.sym a b
  omega

theorem cmpLt_ge_trans {c : α → α → Int} (h : IsCmp c) :
    ∀ a b d, cmpLt c b a = false → cmpLt c d b = false → cmpLt c d a = false := by
  intro a b d h1 h2
  simp only [cmpLt, decide_eq_false_iff_not, not_lt] at h1 h2 ⊢
  have hab : c a b ≤ 0 := by
    have := h.sym a b
    omega
  have hbd : c b d ≤ 0 := by
    have := h.sym b d
    omega
  have := h.leTrans a b d hab hbd
  have := h.sym a d
  omega

/-!
## Data model (src/types.ts) and sorting (src/utils/sorting.ts)
-/

/-- The `ReleaseRow` interface from the shared types. -/
structure ReleaseRow where
  artist_display : String
  title : String
  year : Option Int
  label : String
  catno : String
  country : String
  format_str : String
  discogs_url : String
  notes : String
  release_id : Option Int
  master_id : Option Int
  sort_artist : String
  sort_title : String
  median_price : Option ℚ
  lowest_price : Option ℚ
  thumb_url : String
  cover_image_url : String
deriving DecidableEq

/-- `isVariousArtist` from sorting.ts. -/
def isVariousArtist (artistDisplay : String) : Bool :=
  let a := lowerStr (trimStr artistDisplay)
  a = "various" || a = "various artists"

/-- `VariousPolicy` union type. -/
inductive VariousPolicy
  | normal
  | last
  | title
deriving DecidableEq

/-- `SortBy` union type. -/
inductive SortBy
  | artist
  | title
  | year
  | price_asc
  | price_desc
deriving DecidableEq

/-- Sign model of `localeCompare` on strings. -/
def strCmp (s t : String) : Int := lexCmp s.data t.data

/-- Strict test of the `price_asc` comparator `(a.lowest_price ?? Infinity) -
(b.lowest_price ?? Infinity)`: true exactly when the difference is
negative (the both-null case yields NaN, which the sort treats as 0). -/
def priceAscLt (a b : ReleaseRow) : Bool :=
  match a.lowest_price, b.lowest_price with
  | some x, some y => decide (x < y)
  | some _, none => true
  | none, _ => false

/-- Strict test of the `price_desc` comparator `(b.lowest_price ?? -Infinity)
- (a.lowest_price ?? -Infinity)`: true exactly when that difference is
negative, i.e. when `b`'s value (null as -Infinity) is below `a`'s. -/
def priceDescLt (a b : ReleaseRow) : Bool :=
  match a.lowest_price, b.lowest_price with
  | some x, some y => decide (y < x)
  | some _, none => true
  | none, _ => false

/-- The `year` branch comparator of `sortRows`: year difference with null
as 9999, then the `sortArtist + sortTitle` concatenation. -/
def yearCmp (a b : ReleaseRow) : Int :=
  let ya : Int := a.year.getD 9999
  let yb : Int := b.year.getD 9999
  if ya ≠ yb then ya - yb
  else strCmp (a.sort_artist ++ a.sort_title) (b.sort_artist ++ b.sort_title)

/-- `varFlagA` of the artist/title comparator: 1 when the policy is
`last` and the row is a various-artist row, else 0. -/
def varFlag (vp : VariousPolicy) (r : ReleaseRow) : Int :=
  if vp = VariousPolicy.last ∧ isVariousArtist r.artist_display then 1 else 0

/-- Shared comparison tail of the artist/title comparator: primary key,
secondary key, year (null as 9999), then the key concatenation. -/
def mainTail (a b : ReleaseRow) (primA primB secA secB : String) : Int :=
  if primA ≠ primB then strCmp primA primB
  else if secA ≠ secB then strCmp secA secB
  else if (a.year.getD 9999 : Int) ≠ (b.year.getD 9999 : Int) then
    (a.year.getD 9999 : Int) - (b.year.getD 9999 : Int)
  else strCmp (a.sort_artist ++ a.sort_title) (b.sort_artist ++ b.sort_title)

/-- The artist/title branch comparator of `sortRows`: various-artist flag
first, then the primary/secondary keys selected exactly as in the source
(the grouping branch when the policy is `title` and both rows are
various, the title keys when sorting by title, the artist keys
otherwise), feeding the shared tail. -/
def mainCmp (vp : VariousPolicy) (sb : SortBy) (a b : ReleaseRow) : Int :=
  if varFlag vp a ≠ varFlag vp b then varFlag vp a - varFlag vp b
  else if vp = VariousPolicy.title ∧ isVariousArtist a.artist_display ∧
      isVariousArtist b.artist_display then
    mainTail a b a.sort_title b.sort_title a.sort_title b.sort_title
  else if sb = SortBy.title then
    mainTail a b a.sort_title b.sort_title a.sort_artist b.sort_artist
  else
    mainTail a b a.sort_artist b.sort_artist a.sort_title b.sort_title

/-- The strict comparator test `sortRows` hands to the stable sort,
per sort dimension. -/
def sortLt (vp : VariousPolicy) (sb : SortBy) : ReleaseRow → ReleaseRow → Bool :=
  match sb with
  | SortBy.price_desc => priceDescLt
  | SortBy.price_asc => priceAscLt
  | SortBy.year => fun a b => decide (yearCmp a b < 0)
  | SortBy.artist => fun a b => decide (mainCmp vp SortBy.artist a b < 0)
  | SortBy.title => fun a b => decide (mainCmp vp SortBy.title a b < 0)

/-- `sortRows` from sorting.ts: a stable sort of a copy of the input by
the comparator selected from `sortBy` and `variousPolicy`. -/
def sortRows (rows : List ReleaseRow) (vp : VariousPolicy) (sb : SortBy) : List ReleaseRow :=
  stableSortBy (sortLt vp sb) rows

/-- Primary key of the artist/title comparator when the policy is not
`title` (the grouping branch is then never taken). -/
def primKey (sb : SortBy) (r : ReleaseRow) : List Char :=
  if sb = SortBy.title then r.sort_title.data else r.sort_artist.data

/-- Secondary key, the other sort key. -/
def secKey (sb : SortBy) (r : ReleaseRow) : List Char :=
  if sb = SortBy.title then r.sort_artist.data else r.sort_title.data

/-- Year key with the null default. -/
def yearKey (r : ReleaseRow) : Int := r.year.getD 9999

/-- Absolute tie-break key. -/
def concatKey (r : ReleaseRow) : List Char := (r.sort_artist ++ r.sort_title).data

/-- The artist/title comparator as a lexicographic chain of per-row keys;
valid whenever the policy is `normal` or `last`. -/
def mainChain (vp : VariousPolicy) (sb : SortBy) : ReleaseRow → ReleaseRow → Int :=
  cmpThen (fun a b => varFlag vp a - varFlag vp b)
    (cmpThen (fun a b => lexCmp (primKey sb a) (primKey sb b))
      (cmpThen (fun a b => lexCmp (secKey sb a) (secKey sb b))
        (cmpThen (fun a b => yearKey a - yearKey b)
          (fun a b => lexCmp (concatKey a) (concatKey b)))))

theorem strData_eq_iff (s t : String) : s.data = t.data ↔ s = t := by
  constructor
  · intro h
    cases s
    cases t
    exact congrArg String.mk h
  · intro h
    rw [h]

theorem strCmp_eq_zero_iff (s t : String) : strCmp s t = 0 ↔ s = t := by
  rw [strCmp, lexCmp_eq_zero_iff]
  exact strData_eq_iff s t

theorem lexCmp_data_eq_zero {s t : String} (h : s = t) : lexCmp s.data t.data = 0 :=
  (lexCmp_eq_zero_iff _ _).mpr (by rw [h])

theorem lexCmp_data_ne_zero {s t : String} (h : ¬ s = t) : ¬ lexCmp s.data t.data = 0 :=
  fun h0 => h ((strData_eq_iff s t).mp ((lexCmp_eq_zero_iff _ _).mp h0))

theorem mainTail_eq_nested (a b : ReleaseRow) (pA pB sA sB : String) :
    mainTail a b pA pB sA sB =
      (if lexCmp pA.data pB.data = 0 then
        (if lexCmp sA.data sB.data = 0 then
          (if yearKey a - yearKey b = 0 then lexCmp (concatKey a) (concatKey b)
           else yearKey a - yearKey b)
         else lexCmp sA.data sB.data)
       else lexCmp pA.data pB.data) := by
  unfold mainTail yearKey concatKey strCmp
  by_cases hp : pA = pB
  · rw [if_neg (not_ne_iff.mpr hp), if_pos (lexCmp_data_eq_zero hp)]
    by_cases hs : sA = sB
    · rw [if_neg (not_ne_iff.mpr hs), if_pos (lexCmp_data_eq_zero hs)]
      by_cases hy : (a.year.getD 9999 : Int) = (b.year.getD 9999 : Int)
      · rw [if_neg (not_ne_iff.mpr hy), if_pos (by omega)]
      · rw [if_pos hy, if_neg (by omega)]
    · rw [if_pos hs, if_neg (lexCmp_data_ne_zero hs)]
  · rw [if_pos hp, if_neg (lexCmp_data_ne_zero hp)]

theorem mainCmp_eq_chain (vp : VariousPolicy) (sb : SortBy)
    (hvp : vp ≠ VariousPolicy.title) (a b : ReleaseRow) :
    mainCmp vp sb a b = mainChain vp sb a b := by
  have hgrp : ¬ (vp = VariousPolicy.title ∧ isVariousArtist a.artist_display = true ∧
      isVariousArtist b.artist_display = true) := by
    intro h
    exact hvp h.1
  unfold mainCmp mainChain
  rw [cmpThen, cmpThen, cmpThen, cmpThen]
  by_cases hf : varFlag vp a = varFlag vp b
  · rw [if_neg (not_ne_iff.mpr hf), if_pos (by omega : varFlag vp a - varFlag vp b = 0),
      if_neg hgrp]
    by_cases hsb : sb = SortBy.title
    · subst hsb
      simp only [primKey, secKey, if_pos rfl]
      exact mainTail_eq_nested a b a.sort_title b.sort_title a.sort_artist b.sort_artist
    · rw [if_neg hsb]
      simp only [primKey, secKey, if_neg hsb]
      exact mainTail_eq_nested a b a.sort_artist b.sort_artist a.sort_title b.sort_title
  · rw [if_pos (by exact hf : varFlag vp a ≠ varFlag vp b),
      if_neg (by omega : ¬ varFlag vp a - varFlag vp b = 0)]

theorem isCmp_mainChain (vp : VariousPolicy) (sb : SortBy) : IsCmp (mainChain vp sb) := by
  unfold mainChain
  exact isCmp_cmpThen (isCmp_intKey (varFlag vp))
    (isCmp_cmpThen (isCmp_strKey (primKey sb))
      (isCmp_cmpThen (isCmp_strKey (secKey sb))
        (isCmp_cmpThen (isCmp_intKey yearKey)
          (isCmp_strKey concatKey))))

theorem isCmp_mainCmp (vp : VariousPolicy) (sb : SortBy)
    (hvp : vp ≠ VariousPolicy.title) : IsCmp (mainCmp vp sb) := by
  have h := isCmp_mainChain vp sb
  refine ⟨?_, ?_, ?_⟩
  · intro a b
    rw [mainCmp_eq_chain vp sb hvp, mainCmp_eq_chain vp sb hvp]
    exact h.sym a b
  · intro a b hab d
    rw [mainCmp_eq_chain vp sb hvp] at hab
    rw [mainCmp_eq_chain vp sb hvp, mainCmp_eq_chain vp sb hvp]
    exact h.tieSubst a b hab d
  · intro a b d h1 h2
    rw [mainCmp_eq_chain vp sb hvp] at h1 h2
    rw [mainCmp_eq_chain vp sb hvp]
    exact h.leTrans a b d h1 h2

theorem yearCmp_eq_chain (a b : ReleaseRow) :
    yearCmp a b = cmpThen (fun a b => yearKey a - yearKey b)
      (fun a b => lexCmp (concatKey a) (concatKey b)) a b := by
  simp only [cmpThen, yearKey, concatKey]
  unfold yearCmp strCmp
  by_cases h : (a.year.getD 9999 : Int) = (b.year.getD 9999 : Int)
  · rw [if_neg (not_ne_iff.mpr h), if_pos (by omega)]
  · rw [if_pos h, if_neg (by omega)]

theorem isCmp_yearCmp : IsCmp yearCmp := by
  have h := isCmp_cmpThen (isCmp_intKey yearKey) (isCmp_strKey concatKey)
  refine ⟨?_, ?_, ?_⟩
  · intro a b
    rw [yearCmp_eq_chain, yearCmp_eq_chain]
    exact h.sym a b
  · intro a b hab d
    rw [yearCmp_eq_chain] at hab
    rw [yearCmp_eq_chain, yearCmp_eq_chain]
    exact h.tieSubst a b hab d
  · intro a b d h1 h2
    rw [yearCmp_eq_chain] at h1 h2
    rw [yearCmp_eq_chain]
    exact h.leTrans a b d h1 h2

theorem priceAscLt_cons (a b : ReleaseRow) :
    priceAscLt a b = true → priceAscLt b a = false := by
  unfold priceAscLt
  rcases a.lowest_price with _ | x <;> rcases b.lowest_price with _ | y <;> simp
  intro h
  exact le_of_lt h

theorem priceAscLt_ge_trans (a b c : ReleaseRow) :
    priceAscLt b a = false → priceAscLt c b = false → priceAscLt c a = false := by
  unfold priceAscLt
  rcases ha : a.lowest_price with _ | x <;> rcases hb : b.lowest_price with _ | y <;>
    rcases hc : c.lowest_price with _ | z <;> simp
  intro h1 h2
  exact le_trans h1 h2

theorem priceDescLt_cons (a b : ReleaseRow) :
    priceDescLt a b = true → priceDescLt b a = false := by
  unfold priceDescLt
  rcases a.lowest_price with _ | x <;> rcases b.lowest_price with _ | y <;> simp
  intro h
  exact le_of_lt h

theorem priceDescLt_ge_trans (a b c : ReleaseRow) :
    priceDescLt b a = false → priceDescLt c b = false → priceDescLt c a = false := by
  unfold priceDescLt
  rcases ha : a.lowest_price with _ | x <;> rcases hb : b.lowest_price with _ | y <;>
    rcases hc : c.lowest_price with _ | z <;> simp
  intro h1 h2
  exact le_trans h2 h1

theorem sortLt_cons (vp : VariousPolicy) (sb : SortBy)
    (hvp : vp ≠ VariousPolicy.title) :
    ∀ a b, sortLt vp sb a b = true → sortLt vp sb b a = false := by
  intro a b
  cases sb with
  | price_desc => exact priceDescLt_cons a b
  | price_asc => exact priceAscLt_cons a b
  | year => exact cmpLt_cons isCmp_yearCmp a b
  | artist => exact cmpLt_cons (isCmp_mainCmp vp SortBy.artist hvp) a b
  | title => exact cmpLt_cons (isCmp_mainCmp vp SortBy.title hvp) a b

theorem sortLt_ge_trans (vp : VariousPolicy) (sb : SortBy)
    (hvp : vp ≠ VariousPolicy.title) :
    ∀ a b c, sortLt vp sb b a = false → sortLt vp sb c b = false →
      sortLt vp sb c a = false := by
  intro a b c
  cases sb with
  | price_desc => exact priceDescLt_ge_trans a b c
  | price_asc => exact priceAscLt_ge_trans a b c
  | year => exact cmpLt_ge_trans isCmp_yearCmp a b c
  | artist => exact cmpLt_ge_trans (isCmp_mainCmp vp SortBy.artist hvp) a b c
  | title => exact cmpLt_ge_trans (isCmp_mainCmp vp SortBy.title hvp) a b c

theorem sortRows_perm (rows : List ReleaseRow) (vp : VariousPolicy) (sb : SortBy) :
    List.Perm (sortRows rows vp sb) rows :=
  perm_stableSortBy _ rows

theorem sortRows_pairwise (rows : List ReleaseRow) (vp : VariousPolicy) (sb : SortBy)
    (hvp : vp ≠ VariousPolicy.title) :
    (sortRows rows vp sb).Pairwise (fun a b => sortLt vp sb b a = false) :=
  pairwise_stableSortBy (sortLt vp sb) rows
    (fun a _ b _ h => sortLt_cons vp sb hvp a b h)
    (fun a _ b _ c _ h1 h2 => sortLt_ge_trans vp sb hvp a b c h1 h2)

/-- Row constructor helper for concrete examples: artist display, title,
year, sort keys, lowest price, label and catalogue number; remaining
fields empty. -/
def mkRow (artist ti : String) (yr : Option Int) (sa st : String)
    (lp : Option ℚ) (lbl cat : String) : ReleaseRow :=
  ⟨artist, ti, yr, lbl, cat, "", "", "", "", none, none, sa, st, none, lp, "", ""⟩

theorem mainCmp_flag_pos (sb : SortBy) {a b : ReleaseRow}
    (ha : isVariousArtist a.artist_display = true)
    (hb : isVariousArtist b.artist_display = false) :
    mainCmp VariousPolicy.last sb a b = 1 := by
  have hfa : varFlag VariousPolicy.last a = 1 := by simp [varFlag, ha]
  have hfb : varFlag VariousPolicy.last b = 0 := by simp [varFlag, hb]
  unfold mainCmp
  rw [hfa, hfb]
  norm_num

/-- C1 (amended).  For variousPolicy `normal` or `last`, and any sortBy,
`sortRows` is independent of the input's order whenever no two distinct
rows of the list are tied under the active comparator: sorting any
permutation of the list returns the identical sequence.  (As stated the
claim is false: ties are kept in input order by the stable sort, and the
`title` grouping policy's comparator is not transitive; see the
counterexample.) -/
theorem sortRows_input_order_independent (vp : VariousPolicy) (sb : SortBy)
    (l l' : List ReleaseRow)
    (hvp : vp = VariousPolicy.normal ∨ vp = VariousPolicy.last)
    (hperm : List.Perm l l')
    (hanti : ∀ a ∈ l, ∀ b ∈ l, sortLt vp sb a b = false → sortLt vp sb b a = false → a = b) :
    sortRows l vp sb = sortRows l' vp sb := by
  have hvp' : vp ≠ VariousPolicy.title := by
    rcases hvp with h | h <;> subst h <;> intro hh <;> cases hh
  refine eq_of_perm_of_pairwise (R := fun a b => sortLt vp sb b a = false) ?_ ?_ ?_ ?_
  · exact (sortRows_perm l vp sb).trans (hperm.trans (sortRows_perm l' vp sb).symm)
  · exact sortRows_pairwise l vp sb hvp'
  · exact sortRows_pairwise l' vp sb hvp'
  · intro a ha b hb hab hba
    have ha' : a ∈ l := (sortRows_perm l vp sb).mem_iff.mp ha
    have hb' : b ∈ l := (sortRows_perm l vp sb).mem_iff.mp hb
    exact hanti a ha' b hb' hba hab

/-- Two rows with no price, distinct titles. -/
def c1RowA : ReleaseRow := mkRow "A" "Alpha" none "a" "alpha" none "" ""

/-- Second tied row for the C1 counterexample. -/
def c1RowB : ReleaseRow := mkRow "B" "Beta" none "b" "beta" none "" ""

/-- Various-artist row with title sort key z. -/
def c1Var1 : ReleaseRow := mkRow "Various" "Z" none "various" "z" none "" ""

/-- Various-artist row with title sort key a. -/
def c1Var2 : ReleaseRow := mkRow "Various Artists" "A" none "various artists" "a" none "" ""

/-- Non-various row whose artist sort key lies between the two various
rows' artist keys. -/
def c1Mid : ReleaseRow := mkRow "Various A" "M" none "various a" "m" none "" ""

/-- C1 counterexample: the claim fails as stated.  Two permutations of
two null-priced rows sort to different sequences under `price_asc`
(stable ties keep input order), and two permutations of three pairwise
non-tied rows sort to different sequences under the `title` grouping
policy (its comparator is cyclic on them). -/
theorem sortRows_input_order_dependent_cex :
    (List.Perm [c1RowA, c1RowB] [c1RowB, c1RowA] ∧
      sortRows [c1RowA, c1RowB] VariousPolicy.normal SortBy.price_asc ≠
        sortRows [c1RowB, c1RowA] VariousPolicy.normal SortBy.price_asc) ∧
    (List.Perm [c1Var1, c1Mid, c1Var2] [c1Var2, c1Mid, c1Var1] ∧
      sortRows [c1Var1, c1Mid, c1Var2] VariousPolicy.title SortBy.artist ≠
        sortRows [c1Var2, c1Mid, c1Var1] VariousPolicy.title SortBy.artist) := by
  refine ⟨⟨?_, ?_⟩, ⟨?_, ?_⟩⟩ <;> decide

/-- Distinct-price row for the C1 witness. -/
def c1WitA : ReleaseRow := mkRow "C" "Gamma" none "c" "gamma" (some 5) "" ""

/-- Distinct-price row for the C1 witness. -/
def c1WitB : ReleaseRow := mkRow "D" "Delta" none "d" "delta" (some 7) "" ""

theorem sortRows_input_order_independent_witness :
    sortRows [c1WitA, c1WitB] VariousPolicy.normal SortBy.price_asc =
      sortRows [c1WitB, c1WitA] VariousPolicy.normal SortBy.price_asc :=
  sortRows_input_order_independent VariousPolicy.normal SortBy.price_asc
    [c1WitA, c1WitB] [c1WitB, c1WitA] (Or.inl rfl) (by decide) (by decide)

/-- A row before another row in the sorted order when both carry prices:
the earlier price is at most the later one. -/
def priceAscOrdered (a b : ReleaseRow) : Prop :=
  (∀ x, a.lowest_price = some x → ∀ y, b.lowest_price = some y → x ≤ y) ∧
  (a.lowest_price = none → b.lowest_price = none)

/-- Descending counterpart: the earlier price is at least the later one,
and null-priced rows never precede priced rows. -/
def priceDescOrdered (a b : ReleaseRow) : Prop :=
  (∀ x, a.lowest_price = some x → ∀ y, b.lowest_price = some y → y ≤ x) ∧
  (a.lowest_price = none → b.lowest_price = none)

theorem priceAscOrdered_of_not_lt {a b : ReleaseRow}
    (h : priceAscLt b a = false) : priceAscOrdered a b := by
  constructor
  · intro x hx y hy
    rw [priceAscLt, hx, hy] at h
    simp at h
    exact h
  · intro hx
    rcases hy : b.lowest_price with _ | y
    · rfl
    · rw [priceAscLt, hx, hy] at h
      cases h
  
theorem priceDescOrdered_of_not_lt {a b : ReleaseRow}
    (h : priceDescLt b a = false) : priceDescOrdered a b := by
  constructor
  · intro x hx y hy
    rw [priceDescLt, hx, hy] at h
    simp at h
    exact h
  · intro hx
    rcases hy : b.lowest_price with _ | y
    · rfl
    · rw [priceDescLt, hx, hy] at h
      cases h

/-- C3 (amended).  `sortRows` with `price_asc` returns a permutation of
the rows ordered by lowest price ascending with every null-priced row
after every priced row, and `price_desc` orders descending, again with
nulls last; in both modes rows tied on price keep their input order (the
stable sort preserves tied pairs) rather than being reordered by the
`sort_artist + sort_title` concatenation, which these comparators never
consult (see the counterexample for the tie-rule failure of the claim as
stated). -/
theorem sortRows_price_modes (rows : List ReleaseRow) (vp : VariousPolicy) :
    (List.Perm (sortRows rows vp SortBy.price_asc) rows ∧
      (sortRows rows vp SortBy.price_asc).Pairwise priceAscOrdered ∧
      (∀ a b, List.Sublist [a, b] rows → priceAscLt a b = false → priceAscLt b a = false →
        List.Sublist [a, b] (sortRows rows vp SortBy.price_asc))) ∧
    (List.Perm (sortRows rows vp SortBy.price_desc) rows ∧
      (sortRows rows vp SortBy.price_desc).Pairwise priceDescOrdered ∧
      (∀ a b, List.Sublist [a, b] rows → priceDescLt a b = false → priceDescLt b a = false →
        List.Sublist [a, b] (sortRows rows vp SortBy.price_desc))) := by
  refine ⟨⟨?_, ?_, ?_⟩, ⟨?_, ?_, ?_⟩⟩
  · exact sortRows_perm rows vp SortBy.price_asc
  · have hp : (sortRows rows vp SortBy.price_asc).Pairwise
        (fun a b => priceAscLt b a = false) :=
      pairwise_stableSortBy priceAscLt rows
        (fun a _ b _ h => priceAscLt_cons a b h)
        (fun a _ b _ c _ h1 h2 => priceAscLt_ge_trans a b c h1 h2)
    exact hp.imp (fun h => priceAscOrdered_of_not_lt h)
  · intro a b hsub _ h2
    exact pair_sublist_stableSortBy priceAscLt hsub h2
  · exact sortRows_perm rows vp SortBy.price_desc
  · have hp : (sortRows rows vp SortBy.price_desc).Pairwise
        (fun a b => priceDescLt b a = false) :=
      pairwise_stableSortBy priceDescLt rows
        (fun a _ b _ h => priceDescLt_cons a b h)
        (fun a _ b _ c _ h1 h2 => priceDescLt_ge_trans a b c h1 h2)
    exact hp.imp (fun h => priceDescOrdered_of_not_lt h)
  · intro a b hsub _ h2
    exact pair_sublist_stableSortBy priceDescLt hsub h2

/-- Equal-priced row whose concatenated sort key is larger. -/
def c3RowX : ReleaseRow := mkRow "B" "Beta" none "b" "beta" (some 5) "" ""

/-- Equal-priced row whose concatenated sort key is smaller. -/
def c3RowY : ReleaseRow := mkRow "A" "Alpha" none "a" "alpha" (some 5) "" ""

/-- C3 counterexample: the claim's tie rule fails.  Two rows with the
same price stay in input order, so the output is not ordered by the
`sort_artist + sort_title` concatenation on price ties. -/
theorem sortRows_price_tie_cex :
    ¬ (sortRows [c3RowX, c3RowY] VariousPolicy.normal SortBy.price_asc).Pairwise
      (fun a b => a.lowest_price = b.lowest_price →
        strCmp (a.sort_artist ++ a.sort_title) (b.sort_artist ++ b.sort_title) ≤ 0) := by
  decide

/-- Tied rows used by the C3 witness. -/
def c3WitA : ReleaseRow := mkRow "E" "Eps" none "e" "eps" (some 3) "" ""

/-- Second tied row used by the C3 witness. -/
def c3WitB : ReleaseRow := mkRow "F" "Zeta" none "f" "zeta" (some 3) "" ""

theorem sortRows_price_modes_witness :
    List.Sublist [c3WitA, c3WitB]
      (sortRows [c3WitA, c3WitB] VariousPolicy.normal SortBy.price_asc) :=
  (sortRows_price_modes [c3WitA, c3WitB] VariousPolicy.normal).1.2.2 c3WitA c3WitB
    (by decide) (by decide) (by decide)

/-- C6.  With variousPolicy `last` and sortBy `artist` or `title`,
`sortRows` returns a permutation of the rows in which no various-artist
row (artist display, trimmed and lowercased, equal to "various" or
"various artists") ever precedes a non-various row, and consecutive
order always agrees with the full comparator (flag first, then the
ordinary primary/secondary keys within each partition). -/
theorem sortRows_various_last_partition (rows : List ReleaseRow) (sb : SortBy)
    (h : sb = SortBy.artist ∨ sb = SortBy.title) :
    List.Perm (sortRows rows VariousPolicy.last sb) rows ∧
    (sortRows rows VariousPolicy.last sb).Pairwise
      (fun a b =>
        (isVariousArtist a.artist_display = true → isVariousArtist b.artist_display = true) ∧
        mainCmp VariousPolicy.last sb a b ≤ 0) := by
  have hvp : VariousPolicy.last ≠ VariousPolicy.title := by
    intro hh
    cases hh
  refine ⟨sortRows_perm rows VariousPolicy.last sb, ?_⟩
  have hp := sortRows_pairwise rows VariousPolicy.last sb hvp
  refine hp.imp ?_
  intro a b hba
  have hle : mainCmp VariousPolicy.last sb a b ≤ 0 := by
    rcases h with h | h <;> subst h <;>
      simp only [sortLt, decide_eq_false_iff_not, not_lt] at hba
    · have hsym := (isCmp_mainCmp VariousPolicy.last SortBy.artist hvp).sym a b
      omega
    · have hsym := (isCmp_mainCmp VariousPolicy.last SortBy.title hvp).sym a b
      omega
  refine ⟨?_, hle⟩
  intro hva
  by_cases hvb : isVariousArtist b.artist_display = true
  · exact hvb
  · exfalso
    have hvb' : isVariousArtist b.artist_display = false := by
      cases hx : isVariousArtist b.artist_display
      · rfl
      · exact absurd hx hvb
    have := mainCmp_flag_pos sb hva hvb'
    omega

/-- Pink Floyd row from the claim's example. -/
def c6PF : ReleaseRow := mkRow "Pink Floyd" "Animals" (some 1977) "pink floyd" "animals" none "" ""

/-- Various Artists row from the claim's example. -/
def c6VA : ReleaseRow := mkRow "Various Artists" "Comp" (some 1990) "various artists" "comp" none "" ""

/-- Various row from the claim's example. -/
def c6V : ReleaseRow := mkRow "Various" "Mix" (some 1985) "various" "mix" none "" ""

theorem sortRows_various_last_partition_witness :
    (sortRows [c6VA, c6PF, c6V] VariousPolicy.last SortBy.artist).Pairwise
      (fun a b =>
        (isVariousArtist a.artist_display = true → isVariousArtist b.artist_display = true) ∧
        mainCmp VariousPolicy.last SortBy.artist a b ≤ 0) :=
  (sortRows_various_last_partition [c6VA, c6PF, c6V] SortBy.artist (Or.inl rfl)).2

/-!
## Format classification (isLp33)
-/

/-- One entry of `basic_information.formats`. -/
structure FormatInfo where
  name : Option String
  descriptions : Option (List String)
deriving DecidableEq

/-- The slice of `basic_information` the classifier reads. -/
structure DiscogsBasic where
  formats : Option (List FormatInfo)
deriving DecidableEq

/-- Descriptor normalization for the rpm check:
`t.replace('.', '').replace(' ', '')` removes the first period and then
the first space only. -/
def normToken (t : String) : String :=
  ⟨replaceFirst ' ' (replaceFirst '.' t.data)⟩

/-- The trimmed, lowercased, non-empty descriptor set of a format (the
sets are modelled as lists; only membership and existence are used). -/
def cleanDescs (f : FormatInfo) : List String :=
  ((f.descriptions.getD []).filter (fun d => d != "")).map (fun d => lowerStr (trimStr d))

/-- `descSetHas33Rpm` from sorting.ts. -/
def descSetHas33Rpm (descs : List String) : Bool :=
  if descs.isEmpty then false
  else
    let norm := descs.map normToken
    let hasCombined := norm.any
      (fun t => containsSub "33".data t.data && containsSub "rpm".data t.data)
    if hasCombined then true
    else
      let has33 := norm.any (fun t => containsSub "33".data t.data)
      let hasRpm := norm.any (fun t => t == "rpm" || endsW "rpm".data t.data)
      let hasLpHint := norm.contains "lp" || norm.contains "album"
      has33 && (hasRpm || hasLpHint)

/-- `isLp33` from sorting.ts (strict and lenient modes). -/
def isLp33 (basic : DiscogsBasic) (strict : Bool) : Bool :=
  let vinylFormats := (basic.formats.getD []).filter
    (fun f => lowerStr (trimStr (f.name.getD "")) == "vinyl")
  if vinylFormats.isEmpty then false
  else
    let sizeTokens : List String := ["12\"", "12in", "12-inch"]
    let descSets := vinylFormats.map cleanDescs
    if strict then
      descSets.any (fun s => (s.contains "lp" || s.contains "album") && descSetHas33Rpm s)
    else
      descSets.any (fun s =>
        let hasLpOrAlbum := s.contains "lp" || s.contains "album"
        let has12And33 := s.any (fun d => sizeTokens.contains d || containsSub "12".data d.data)
        hasLpOrAlbum || (descSetHas33Rpm s && has12And33))

theorem contains_iff_mem {l : List String} {a : String} :
    l.contains a = true ↔ a ∈ l := by
  rw [List.contains_iff_exists_mem_beq]
  constructor
  · rintro ⟨x, hx, hbeq⟩
    have : a = x := by
      have := eq_of_beq hbeq
      exact this
    rw [this]
    exact hx
  · intro h
    exact ⟨a, h, by simp⟩

theorem descSetHas33Rpm_with_lp (s : List String)
    (hlp : s.contains "lp" = true ∨ s.contains "album" = true) :
    descSetHas33Rpm s = true ↔
      ∃ d ∈ s, containsSub "33".data (normToken d).data = true := by
  have hne : s.isEmpty = false := by
    rcases hlp with h | h <;>
      rcases contains_iff_mem.mp h with hm <;>
      cases s <;> simp_all
  have hint : (s.map normToken).contains "lp" = true ∨
      (s.map normToken).contains "album" = true := by
    rcases hlp with h | h
    · left
      rw [contains_iff_mem] at h ⊢
      have : normToken "lp" = "lp" := rfl
      exact this ▸ List.mem_map_of_mem normToken h
    · right
      rw [contains_iff_mem] at h ⊢
      have : normToken "album" = "album" := rfl
      exact this ▸ List.mem_map_of_mem normToken h
  unfold descSetHas33Rpm
  rw [hne]
  simp only [Bool.false_eq_true, if_false]
  by_cases hc : (s.map normToken).any
      (fun t => containsSub "33".data t.data && containsSub "rpm".data t.data) = true
  · rw [if_pos hc]
    simp only [true_iff]
    rw [List.any_eq_true] at hc
    rcases hc with ⟨t, ht, hp⟩
    rcases List.mem_map.mp ht with ⟨d, hd, hdt⟩
    refine ⟨d, hd, ?_⟩
    rw [hdt]
    exact (Bool.and_eq_true_iff.mp hp).1
  · rw [if_neg hc]
    constructor
    · intro h
      rcases Bool.and_eq_true_iff.mp h with ⟨h33, _⟩
      rw [List.any_eq_true] at h33
      rcases h33 with ⟨t, ht, hp⟩
      rcases List.mem_map.mp ht with ⟨d, hd, hdt⟩
      exact ⟨d, hd, hdt ▸ hp⟩
    · intro h
      rcases h with ⟨d, hd, hp⟩
      refine Bool.and_eq_true_iff.mpr ⟨?_, ?_⟩
      · rw [List.any_eq_true]
        exact ⟨normToken d, List.mem_map_of_mem normToken hd, hp⟩
      · exact Bool.or_eq_true_iff.mpr (Or.inr (Bool.or_eq_true_iff.mpr hint))

/-- C2 (amended).  Strict mode qualifies an entry iff some format whose
trimmed lowercased name is "vinyl" has a descriptor set containing "lp"
or "album" and some descriptor that, after removing its first period and
first space, contains "33"; the "lp"/"album" tag itself satisfies the
comparator's lp-hint, so no separate rpm token is required, and in
particular `{name:"Vinyl", descriptions:["LP"]}` does NOT qualify under
strict mode (no "33" signal), contrary to the claim as stated. -/
theorem isLp33_strict_iff (basic : DiscogsBasic) :
    isLp33 basic true = true ↔
      ∃ f ∈ basic.formats.getD [],
        lowerStr (trimStr (f.name.getD "")) = "vinyl" ∧
        ((cleanDescs f).contains "lp" = true ∨ (cleanDescs f).contains "album" = true) ∧
        ∃ d ∈ cleanDescs f, containsSub "33".data (normToken d).data = true := by
  unfold isLp33
  set vf := (basic.formats.getD []).filter
    (fun f => lowerStr (trimStr (f.name.getD "")) == "vinyl") with hvf
  by_cases he : vf.isEmpty = true
  · rw [if_pos he]
    simp only [Bool.false_eq_true, false_iff]
    rintro ⟨f, hf, hname, _, _⟩
    have : f ∈ vf := by
      rw [hvf, List.mem_filter]
      exact ⟨hf, by simp [hname]⟩
    rw [List.isEmpty_iff] at he
    rw [he] at this
    cases this
  · rw [if_neg he]
    simp only [if_true]
    rw [List.any_eq_true]
    constructor
    · rintro ⟨s, hs, hp⟩
      rcases List.mem_map.mp hs with ⟨f, hf, hfs⟩
      rcases List.mem_filter.mp (hvf ▸ hf) with ⟨hfmem, hfname⟩
      subst hfs
      rcases Bool.and_eq_true_iff.mp hp with ⟨hlp, h33⟩
      have hlp' : (cleanDescs f).contains "lp" = true ∨
          (cleanDescs f).contains "album" = true := by
        rcases Bool.or_eq_true_iff.mp hlp with h | h
        · exact Or.inl h
        · exact Or.inr h
      refine ⟨f, hfmem, ?_, hlp', ?_⟩
      · have := of_decide_eq_true hfname
        exact this
      · exact (descSetHas33Rpm_with_lp (cleanDescs f) hlp').mp h33
    · rintro ⟨f, hf, hname, hlp, h33⟩
      refine ⟨cleanDescs f, ?_, ?_⟩
      · refine List.mem_map_of_mem cleanDescs ?_
        rw [hvf, List.mem_filter]
        exact ⟨hf, by simp [hname]⟩
      · refine Bool.and_eq_true_iff.mpr ⟨?_, ?_⟩
        · exact Bool.or_eq_true_iff.mpr hlp
        · exact (descSetHas33Rpm_with_lp (cleanDescs f) hlp).mpr h33

/-- C2 counterexample: the claim asserts `{name:"Vinyl",
descriptions:["LP"]}` qualifies under strict mode; the code rejects it
(there is no "33" signal in its descriptor set). -/
theorem isLp33_strict_lp_only_cex :
    isLp33 ⟨some [⟨some "Vinyl", some ["LP"]⟩]⟩ true = false := by
  decide

theorem isLp33_strict_iff_witness :
    isLp33 ⟨some [⟨some "Vinyl", some ["LP", "33 1/3 RPM"]⟩]⟩ true = true :=
  (isLp33_strict_iff ⟨some [⟨some "Vinyl", some ["LP", "33 1/3 RPM"]⟩]⟩).mpr (by decide)

/-!
## Sort-key normalization (makeSortKeys)
-/

/-- `s.split(sep)[0]`: the text before the first separator. -/
def splitFirstTake (sep : Char) (l : List Char) : List Char :=
  l.takeWhile (fun c => c != sep)

/-- Core of the `\s*\((\d+)\)$` removal: strips a trailing parenthesized
digit group together with the whitespace in front of it. -/
def stripNumCore (l : List Char) : List Char :=
  match l.reverse with
  | ')' :: rest =>
    let ds := rest.takeWhile Char.isDigit
    match ds, rest.drop ds.length with
    | _ :: _, '(' :: rest2 => (rest2.dropWhile isWsChar).reverse
    | _, _ => l
  | _ => l

/-- `stripDiscogsNumericSuffix` from sorting.ts: regex removal of the
trailing numeric disambiguator, then trim. -/
def stripDiscogsNumericSuffix (s : String) : String :=
  trimStr ⟨stripNumCore s.data⟩

/-- `art.replace(/'$/, '')`: drop one trailing apostrophe. -/
def deApos (a : List Char) : List Char :=
  match a.reverse with
  | '\'' :: r => r.reverse
  | _ => a

/-- The article loop of `stripArticles`: the first matching article is
stripped (with a following space or apostrophe), otherwise the trimmed
text is returned unchanged. -/
def stripArticlesGo (t low : List Char) : List (List Char) → List Char
  | [] => t
  | art :: rest =>
    let a := deApos art
    if startsW (a ++ [' ']) low then trimL (t.drop (a.length + 1))
    else if !a.isEmpty && startsW (a ++ ['\'']) low then trimL (t.drop (a.length + 1))
    else stripArticlesGo t low rest

/-- The article list: "the", "a", "an" plus the trimmed lowercased
non-empty extra articles. -/
def articlesOf (extra : List String) : List (List Char) :=
  ["the".data, "a".data, "an".data] ++
    ((extra.map (fun e => lowerL (trimL e.data))).filter (fun x => !x.isEmpty))

/-- `stripArticles` from sorting.ts. -/
def stripArticlesL (text : List Char) (extra : List String) : List Char :=
  if text.isEmpty then []
  else stripArticlesGo (trimL text) (lowerL (trimL text)) (articlesOf extra)

/-- `makeSortKeys` from sorting.ts: artist key from the text before the
first slash or comma, disambiguator-stripped, article-stripped and
lowercased; title key article-stripped and lowercased. -/
def makeSortKeys (artistDisplay ti : String) (extra : List String) : String × String :=
  let artistFirst := trimL (splitFirstTake ',' (splitFirstTake '/' artistDisplay.data))
  let artistClean := trimL (stripDiscogsNumericSuffix ⟨artistFirst⟩).data
  (⟨lowerL (stripArticlesL artistClean extra)⟩, ⟨lowerL (stripArticlesL ti.data extra)⟩)

theorem takeWhile_all {p : Char → Bool} :
    ∀ {l : List Char}, (∀ c ∈ l, p c = true) → l.takeWhile p = l := by
  intro l
  induction l with
  | nil => intro _; rfl
  | cons c cs ih =>
    intro h
    have h1 := h c (List.mem_cons_self c cs)
    have h2 := ih (fun x hx => h x (List.mem_cons_of_mem c hx))
    rw [List.takeWhile_cons, h1, h2]
    simp

theorem mkData (s : String) : String.mk s.data = s := by
  cases s
  rfl

theorem stripArticlesGo_of_no_match (t low : List Char) :
    ∀ arts : List (List Char),
      (∀ art ∈ arts, startsW (deApos art ++ [' ']) low = false ∧
        (deApos art ≠ [] → startsW (deApos art ++ ['\'']) low = false)) →
      stripArticlesGo t low arts = t := by
  intro arts
  induction arts with
  | nil => intro _; rfl
  | cons art rest ih =>
    intro h
    have h1 := h art (List.mem_cons_self art rest)
    have hsp : startsW (deApos art ++ [' ']) low = false := h1.1
    have hap : (!(deApos art).isEmpty && startsW (deApos art ++ ['\'']) low) = false := by
      by_cases he : deApos art = []
      · rw [he]
        rfl
      · have := h1.2 he
        rw [this]
        simp
    rw [stripArticlesGo]
    simp only [hsp, hap, Bool.false_eq_true, if_false]
    exact ih (fun a ha => h a (List.mem_cons_of_mem art ha))

/-- C9 (amended).  `makeSortKeys` is the identity on key pairs that are
already fully normalized: the artist key contains no slash or comma, and
both keys are trimmed, lowercase, free of a leading article (followed by
a space or apostrophe), the artist key additionally carrying no trailing
parenthesized number.  On such inputs applying `makeSortKeys` to its own
output returns the same pair ("beatles" stays "beatles").  As stated the
claim is false: stripping one article can expose another ("the a x"
becomes "a x", which strips again to "x"), and one pass removes only one
trailing numeric disambiguator. -/
theorem makeSortKeys_idempotent (sa st : String) (extra : List String)
    (haTrim : trimL sa.data = sa.data)
    (haLower : lowerL sa.data = sa.data)
    (haNum : stripNumCore sa.data = sa.data)
    (haSep : ('/' ∈ sa.data → False) ∧ (',' ∈ sa.data → False))
    (haArt : ∀ art ∈ articlesOf extra,
      startsW (deApos art ++ [' ']) sa.data = false ∧
      (deApos art ≠ [] → startsW (deApos art ++ ['\'']) sa.data = false))
    (htTrim : trimL st.data = st.data)
    (htLower : lowerL st.data = st.data)
    (htArt : ∀ art ∈ articlesOf extra,
      startsW (deApos art ++ [' ']) st.data = false ∧
      (deApos art ≠ [] → startsW (deApos art ++ ['\'']) st.data = false)) :
    makeSortKeys sa st extra = (sa, st) := by
  have hsplit : splitFirstTake ',' (splitFirstTake '/' sa.data) = sa.data := by
    have h1 : splitFirstTake '/' sa.data = sa.data := by
      refine takeWhile_all ?_
      intro c hc
      have : c ≠ '/' := fun h => haSep.1 (h ▸ hc)
      simpa using this
    rw [h1]
    refine takeWhile_all ?_
    intro c hc
    have : c ≠ ',' := fun h => haSep.2 (h ▸ hc)
    simpa using this
  have hstripA : ∀ u : List Char, u = sa.data → stripArticlesL u extra = sa.data := by
    intro u hu
    subst hu
    rw [stripArticlesL]
    by_cases he : sa.data.isEmpty = true
    · rw [if_pos he]
      rw [List.isEmpty_iff] at he
      exact he.symm
    · rw [if_neg he, haTrim, haLower]
      exact stripArticlesGo_of_no_match sa.data sa.data (articlesOf extra) haArt
  have hstripT : stripArticlesL st.data extra = st.data := by
    rw [stripArticlesL]
    by_cases he : st.data.isEmpty = true
    · rw [if_pos he]
      rw [List.isEmpty_iff] at he
      exact he.symm
    · rw [if_neg he, htTrim, htLower]
      exact stripArticlesGo_of_no_match st.data st.data (articlesOf extra) htArt
  unfold makeSortKeys
  have hnum : stripDiscogsNumericSuffix ⟨sa.data⟩ = sa := by
    have h0 : stripDiscogsNumericSuffix ⟨sa.data⟩ = ⟨trimL (stripNumCore sa.data)⟩ := rfl
    rw [h0, haNum, haTrim]
  simp only [hsplit, haTrim, hnum, hstripA sa.data rfl, hstripT, haLower, htLower]

/-- C9 counterexample: applying `makeSortKeys` to its own output is not
the identity — "The A Team" strips to "a team", and a second pass strips
the now-leading article "a" to "team". -/
theorem makeSortKeys_not_idempotent_cex :
    makeSortKeys "The A Team" "X" [] = ("a team", "x") ∧
    makeSortKeys "a team" "x" [] ≠ ("a team", "x") := by
  constructor <;> decide

theorem makeSortKeys_idempotent_witness :
    makeSortKeys "beatles" "abbey road" [] = ("beatles", "abbey road") :=
  makeSortKeys_idempotent "beatles" "abbey road" []
    (by decide) (by decide) (by decide) (by decide) (by decide)
    (by decide) (by decide) (by decide)

/-!
## Plain-text export (export.ts)
-/

/-- The section letter of `getDividerLine`: upper-cased first character
of the trimmed artist sort key when it is an ASCII letter, else the
catch-all bucket. -/
def getDividerLetter (r : ReleaseRow) : Char :=
  match trimL r.sort_artist.data with
  | [] => '#'
  | c :: _ =>
    let u := asciiUpper c
    if 'A' ≤ u ∧ u ≤ 'Z' then u else '#'

/-- A divider line for a section letter. -/
def dividerLine (letter : Char) : String :=
  "=== " ++ String.singleton letter ++ " ==="

/-- `getDividerLine` from export.ts; the running one-character divider
string is modelled as an optional character. -/
def getDividerLine (r : ReleaseRow) (current : Option Char) (dividers : Bool) :
    Option Char × Option String :=
  if !dividers then (current, none)
  else
    let letter := getDividerLetter r
    if current ≠ some letter then (some letter, some (dividerLine letter))
    else (current, none)

/-- `formatTxtLine` from export.ts (its unused dividers parameter is
dropped): note the inner `trim` glues the bracket segment directly after
the title or year, and the whole line is trimmed. -/
def formatTxtLine (r : ReleaseRow) : String :=
  let yearStr := match r.year with
    | some y => if y = 0 then "" else " (" ++ toString y ++ ")"
    | none => ""
  let labelPart :=
    if r.label != "" || r.catno != "" then trimStr (" [" ++ r.label ++ " " ++ r.catno ++ "]")
    else ""
  trimStr (r.artist_display ++ " — " ++ r.title ++ yearStr ++ labelPart)

/-- The line-accumulating loop of `generateTxt`. -/
def genTxtAux (dividers : Bool) (current : Option Char) : List ReleaseRow → List String
  | [] => []
  | r :: rs =>
    let p := getDividerLine r current dividers
    (match p.2 with
      | some line => [line]
      | none => []) ++ formatTxtLine r :: genTxtAux dividers p.1 rs

/-- The lines `generateTxt` pushes, before joining. -/
def generateTxtLines (rows : List ReleaseRow) (dividers : Bool) : List String :=
  genTxtAux dividers none rows

/-- `generateTxt` from export.ts: the lines joined with newlines. -/
def generateTxt (rows : List ReleaseRow) (dividers : Bool) : String :=
  String.intercalate "\n" (generateTxtLines rows dividers)

/-- Divider emission as the claim words it: a divider line immediately
before a row exactly when its letter differs from the previous row's
letter (the first row always gets one). -/
def specDividerTxt (prev : Option Char) : List ReleaseRow → List String
  | [] => []
  | r :: rs =>
    (if prev ≠ some (getDividerLetter r) then [dividerLine (getDividerLetter r)] else []) ++
      formatTxtLine r :: specDividerTxt (some (getDividerLetter r)) rs

/-- The line format exactly as the claim states it, with a space before
the bracket segment. -/
def claimFormatLine (r : ReleaseRow) : String :=
  r.artist_display ++ " — " ++ r.title ++
    (match r.year with
      | some y => " (" ++ toString y ++ ")"
      | none => "") ++
    (if r.label != "" || r.catno != "" then " [" ++ r.label ++ " " ++ r.catno ++ "]" else "")

/-- Air row of the claim's divider example. -/
def c7Air : ReleaseRow := mkRow "Air" "Moon Safari" (some 1998) "air" "moon safari" none "" ""

/-- Boards of Canada row of the claim's divider example. -/
def c7BoC : ReleaseRow :=
  mkRow "Boards of Canada" "Music Has the Right to Children" (some 1998)
    "boards of canada" "music has the right to children" none "" ""

/-- Caribou row of the claim's divider example. -/
def c7Car : ReleaseRow := mkRow "Caribou" "Swim" (some 2010) "caribou" "swim" none "" ""

/-- C7 (amended).  `generateTxt` emits one line per row in order — the
code's line format glues the bracket segment directly after the title or
year parenthetical (its leading space is trimmed away), omits the year
when absent (or zero) and the bracket segment when label and catalogue
number are both empty — and with dividers enabled it inserts
`"=== L ==="` immediately before a row exactly when the row's letter
(upper-cased first character of the trimmed artist sort key if an ASCII
letter, else "#") differs from the previous row's; the claim's
Air / Boards of Canada / Caribou example produces its six lines in
order. -/
theorem generateTxt_spec :
    (∀ rows : List ReleaseRow, generateTxtLines rows false = rows.map formatTxtLine) ∧
    (∀ (rows : List ReleaseRow) (cur : Option Char),
      genTxtAux true cur rows = specDividerTxt cur rows) ∧
    generateTxtLines [c7Air, c7BoC, c7Car] true =
      ["=== A ===", "Air — Moon Safari (1998)",
       "=== B ===", "Boards of Canada — Music Has the Right to Children (1998)",
       "=== C ===", "Caribou — Swim (2010)"] := by
  have h1 : ∀ (rows : List ReleaseRow) (cur : Option Char),
      genTxtAux false cur rows = rows.map formatTxtLine := by
    intro rows
    induction rows with
    | nil => intro _; rfl
    | cons r rs ih =>
      intro cur
      rw [genTxtAux]
      have hp : getDividerLine r cur false = (cur, none) := rfl
      rw [hp]
      simp only [List.nil_append, List.map_cons]
      rw [ih cur]
  have h2 : ∀ (rows : List ReleaseRow) (cur : Option Char),
      genTxtAux true cur rows = specDividerTxt cur rows := by
    intro rows
    induction rows with
    | nil => intro _; rfl
    | cons r rs ih =>
      intro cur
      rw [genTxtAux, specDividerTxt]
      by_cases hc : cur = some (getDividerLetter r)
      · have hp : getDividerLine r cur true = (cur, none) := by
          rw [getDividerLine]
          simp [hc]
        rw [hp]
        simp only [List.nil_append]
        rw [if_neg (by simp [hc]), ih cur]
        rw [hc]
        simp
      · have hp : getDividerLine r cur true =
            (some (getDividerLetter r), some (dividerLine (getDividerLetter r))) := by
          rw [getDividerLine]
          simp [hc]
        rw [hp]
        rw [if_pos (by simp [hc]), ih (some (getDividerLetter r))]
  refine ⟨fun rows => h1 rows none, h2, ?_⟩
  rw [generateTxtLines, h2]
  decide

/-- Row with label and catalogue number for the C7 counterexample. -/
def c7Lbl : ReleaseRow := mkRow "Air" "Moon Safari" (some 1998) "air" "moon safari" none "Source" "SRC1"

/-- C7 counterexample: the emitted line has no space before the bracket
segment (the code trims the segment's leading space away), so it differs
from the claim's stated format. -/
theorem generateTxt_line_format_cex :
    generateTxtLines [c7Lbl] false = ["Air — Moon Safari (1998)[Source SRC1]"] ∧
    claimFormatLine c7Lbl = "Air — Moon Safari (1998) [Source SRC1]" ∧
    generateTxtLines [c7Lbl] false ≠ [claimFormatLine c7Lbl] := by
  refine ⟨?_, ?_, ?_⟩ <;> decide

/-!
## Section-label ordering (CollectionScreen sections comparator)
-/

/-- `/^\d+$/.test(s)`. -/
def isNumStr (s : String) : Bool :=
  !s.data.isEmpty && s.data.all Char.isDigit

/-- `parseInt(s, 10)` on an all-digit string. -/
def natValOf (s : String) : ℕ :=
  s.data.foldl (fun n c => 10 * n + (c.toNat - '0'.toNat)) 0

/-- The section-key comparator from the CollectionScreen `useMemo`:
"#" sorts last, then "?", numeric labels compare numerically, everything
else by `localeCompare`. -/
def sectionCompare (a b : String) : Int :=
  if a = "#" then 1
  else if b = "#" then -1
  else if a = "?" then 1
  else if b = "?" then -1
  else if isNumStr a && isNumStr b then (natValOf a : Int) - (natValOf b : Int)
  else lexCmp a.data b.data

/-- `[...map.keys()].sort(comparator)`. -/
def sortSectionKeys (keys : List String) : List String :=
  stableSortBy (fun a b => decide (sectionCompare a b < 0)) keys

/-- Modelled from the spec: the labels `getSectionLetter` can produce
(its source is not in the repository) — an upper-cased ASCII letter
bucket, the "#" bucket, the reserved "?" bucket, or a purely-numeric
bucket label. -/
def isSectionLabel (s : String) : Bool :=
  s == "#" || s == "?" ||
  (s.data.length == 1 && s.data.all (fun c => decide ('A' ≤ c) && decide (c ≤ 'Z'))) ||
  (!s.data.isEmpty && s.data.all Char.isDigit)

/-- Rank of a label in the order the comparator realises: numerics
first, then letters, then "?", then "#". -/
def sectionRank (s : String) : ℕ :=
  if s = "#" then 3 else if s = "?" then 2 else if isNumStr s then 0 else 1

/-- Tie comparison at equal rank: numeric value or lexicographic. -/
def sectionTieGe (x y : String) : Prop :=
  if isNumStr x = true ∧ isNumStr y = true then natValOf y ≤ natValOf x
  else lexCmp y.data x.data ≤ 0

theorem isDigit_le_nine {c : Char} (h : c.isDigit = true) : c ≤ '9' := by
  simp only [Char.isDigit, Bool.and_eq_true, decide_eq_true_eq] at h
  rw [Char.le_def]
  exact h.2

theorem digit_lt_of_upper {c d : Char} (hc : c.isDigit = true) (hd : 'A' ≤ d) : c < d :=
  lt_of_le_of_lt (isDigit_le_nine hc) (lt_of_lt_of_le (by decide : ('9' : Char) < 'A') hd)

theorem upper_not_digit {c : Char} (h : 'A' ≤ c) : c.isDigit = false := by
  cases hx : c.isDigit
  · rfl
  · exact absurd (digit_lt_of_upper hx h) (lt_irrefl c)

theorem isSectionLabel_cases {s : String} (h : isSectionLabel s = true) :
    s = "#" ∨ s = "?" ∨ (∃ c, s.data = [c] ∧ 'A' ≤ c ∧ c ≤ 'Z') ∨
      (s.data ≠ [] ∧ ∀ c ∈ s.data, c.isDigit = true) := by
  simp only [isSectionLabel, Bool.or_eq_true, beq_iff_eq, Bool.and_eq_true,
    List.all_eq_true, decide_eq_true_eq, Bool.not_eq_true', List.isEmpty_eq_false] at h
  rcases h with ((h | h) | ⟨hlen, hall⟩) | ⟨hne, hall⟩
  · exact Or.inl h
  · exact Or.inr (Or.inl h)
  · refine Or.inr (Or.inr (Or.inl ?_))
    obtain ⟨c, hc⟩ := List.length_eq_one.mp hlen
    have := hall c (by rw [hc]; exact List.mem_cons_self c [])
    exact ⟨c, hc, this.1, this.2⟩
  · exact Or.inr (Or.inr (Or.inr ⟨hne, hall⟩))

theorem letter_ne_hash {s : String} {c : Char} (hs : s.data = [c]) (h1 : 'A' ≤ c) :
    s ≠ "#" := by
  intro h
  subst h
  have : c = '#' := by
    have h0 : ("#" : String).data = ['#'] := rfl
    rw [h0] at hs
    exact ((List.cons.injEq '#' [] c []).mp hs).1.symm
  subst this
  exact absurd h1 (by decide)

theorem letter_ne_quest {s : String} {c : Char} (hs : s.data = [c]) (h1 : 'A' ≤ c) :
    s ≠ "?" := by
  intro h
  subst h
  have : c = '?' := by
    have h0 : ("?" : String).data = ['?'] := rfl
    rw [h0] at hs
    exact ((List.cons.injEq '?' [] c []).mp hs).1.symm
  subst this
  exact absurd h1 (by decide)

theorem letter_not_num {s : String} {c : Char} (hs : s.data = [c]) (h1 : 'A' ≤ c) :
    isNumStr s = false := by
  rw [isNumStr, hs]
  simp [upper_not_digit h1]

theorem sectionRank_letter {s : String} {c : Char} (hs : s.data = [c]) (h1 : 'A' ≤ c) :
    sectionRank s = 1 := by
  rw [sectionRank, if_neg (letter_ne_hash hs h1), if_neg (letter_ne_quest hs h1)]
  simp [letter_not_num hs h1]

theorem num_ne_hash {s : String} (hall : ∀ c ∈ s.data, c.isDigit = true) : s ≠ "#" := by
  intro h
  subst h
  have := hall '#' (List.mem_cons_self '#' [])
  simp [Char.isDigit] at this

theorem num_ne_quest {s : String} (hall : ∀ c ∈ s.data, c.isDigit = true) : s ≠ "?" := by
  intro h
  subst h
  have := hall '?' (List.mem_cons_self '?' [])
  simp [Char.isDigit] at this

theorem num_isNumStr {s : String} (hne : s.data ≠ []) (hall : ∀ c ∈ s.data, c.isDigit = true) :
    isNumStr s = true := by
  rw [isNumStr]
  simp only [Bool.and_eq_true, Bool.not_eq_true', List.isEmpty_eq_false, List.all_eq_true]
  exact ⟨hne, hall⟩

theorem sectionRank_num {s : String} (hne : s.data ≠ []) (hall : ∀ c ∈ s.data, c.isDigit = true) :
    sectionRank s = 0 := by
  rw [sectionRank, if_neg (num_ne_hash hall), if_neg (num_ne_quest hall)]
  simp [num_isNumStr hne hall]

theorem sectionRank_zero_iff {s : String} : sectionRank s = 0 ↔ isNumStr s = true := by
  constructor
  · intro h
    rw [sectionRank] at h
    by_cases h1 : s = "#"
    · rw [if_pos h1] at h
      cases h
    · rw [if_neg h1] at h
      by_cases h2 : s = "?"
      · rw [if_pos h2] at h
        cases h
      · rw [if_neg h2] at h
        by_cases h3 : isNumStr s = true
        · exact h3
        · simp [h3] at h
  · intro h
    have h1 : s ≠ "#" := by
      intro he
      rw [he] at h
      simp [isNumStr, Char.isDigit] at h
    have h2 : s ≠ "?" := by
      intro he
      rw [he] at h
      simp [isNumStr, Char.isDigit] at h
    rw [sectionRank, if_neg h1, if_neg h2, if_pos h]

theorem sectionRank_hash_eq : sectionRank "#" = 3 := rfl

theorem sectionRank_quest_eq : sectionRank "?" = 2 := by decide

theorem scmp_hash_left (y : String) : sectionCompare "#" y = 1 := by
  rw [sectionCompare, if_pos rfl]

theorem scmp_hash_right {x : String} (h : x ≠ "#") : sectionCompare x "#" = -1 := by
  rw [sectionCompare, if_neg h, if_pos rfl]

theorem scmp_quest_left {y : String} (hy : y ≠ "#") : sectionCompare "?" y = 1 := by
  rw [sectionCompare, if_neg (by decide), if_neg hy, if_pos rfl]

theorem scmp_quest_right {x : String} (hx1 : x ≠ "#") (hx2 : x ≠ "?") :
    sectionCompare x "?" = -1 := by
  rw [sectionCompare, if_neg hx1, if_neg (by decide), if_neg hx2, if_pos rfl]

theorem scmp_num {x y : String} (hx1 : x ≠ "#") (hx2 : x ≠ "?") (hy1 : y ≠ "#")
    (hy2 : y ≠ "?") (hn : (isNumStr x && isNumStr y) = true) :
    sectionCompare x y = (natValOf x : Int) - (natValOf y : Int) := by
  rw [sectionCompare, if_neg hx1, if_neg hy1, if_neg hx2, if_neg hy2]
  simp only [hn, if_true]

theorem scmp_other {x y : String} (hx1 : x ≠ "#") (hx2 : x ≠ "?") (hy1 : y ≠ "#")
    (hy2 : y ≠ "?") (hn : (isNumStr x && isNumStr y) = false) :
    sectionCompare x y = lexCmp x.data y.data := by
  rw [sectionCompare, if_neg hx1, if_neg hy1, if_neg hx2, if_neg hy2]
  simp only [hn, Bool.false_eq_true, if_false]

theorem lexCmp_single (c d : Char) :
    lexCmp [c] [d] = if c < d then -1 else if d < c then 1 else 0 := rfl

theorem lexCmp_cons_lt {a b : Char} {as bs : List Char} (h : a < b) :
    lexCmp (a :: as) (b :: bs) = -1 := by
  simp [lexCmp, h]

theorem lexCmp_cons_gt {a b : Char} {as bs : List Char} (h : b < a) :
    lexCmp (a :: as) (b :: bs) = 1 := by
  have h' : ¬ a < b := asymm h
  simp [lexCmp, h, h']

theorem sectionCompare_nonneg_iff {x y : String} (hx : isSectionLabel x = true)
    (hy : isSectionLabel y = true) :
    0 ≤ sectionCompare x y ↔
      (sectionRank y < sectionRank x ∨
        (sectionRank x = sectionRank y ∧ sectionTieGe x y)) := by
  rcases isSectionLabel_cases hx with hx | hx | ⟨c, hc, hc1, hc2⟩ | ⟨hxe, hxd⟩
  · subst hx
    rw [scmp_hash_left]
    rcases isSectionLabel_cases hy with hy | hy | ⟨d, hd, hd1, hd2⟩ | ⟨hye, hyd⟩
    · subst hy
      refine iff_of_true (by omega) (Or.inr ⟨rfl, ?_⟩)
      rw [sectionTieGe, if_neg (by simp [isNumStr, Char.isDigit])]
      decide
    · subst hy
      exact iff_of_true (by omega)
        (Or.inl (by rw [sectionRank_quest_eq, sectionRank_hash_eq]; omega))
    · exact iff_of_true (by omega)
        (Or.inl (by rw [sectionRank_letter hd hd1, sectionRank_hash_eq]; omega))
    · exact iff_of_true (by omega)
        (Or.inl (by rw [sectionRank_num hye hyd, sectionRank_hash_eq]; omega))
  · subst hx
    rcases isSectionLabel_cases hy with hy | hy | ⟨d, hd, hd1, hd2⟩ | ⟨hye, hyd⟩
    · subst hy
      rw [scmp_hash_right (by decide)]
      exact iff_of_false (by omega) (by rw [sectionRank_hash_eq, sectionRank_quest_eq]; omega)
    · subst hy
      rw [scmp_quest_left (by decide)]
      refine iff_of_true (by omega) (Or.inr ⟨rfl, ?_⟩)
      rw [sectionTieGe, if_neg (by simp [isNumStr, Char.isDigit])]
      decide
    · rw [scmp_quest_left (letter_ne_hash hd hd1)]
      refine iff_of_true (by omega) (Or.inl ?_)
      rw [sectionRank_letter hd hd1, sectionRank_quest_eq]
      omega
    · rw [scmp_quest_left (num_ne_hash hyd)]
      refine iff_of_true (by omega) (Or.inl ?_)
      rw [sectionRank_num hye hyd, sectionRank_quest_eq]
      omega
  · rcases isSectionLabel_cases hy with hy | hy | ⟨d, hd, hd1, hd2⟩ | ⟨hye, hyd⟩
    · subst hy
      rw [scmp_hash_right (letter_ne_hash hc hc1)]
      refine iff_of_false (by omega) ?_
      rw [sectionRank_letter hc hc1, sectionRank_hash_eq]
      omega
    · subst hy
      rw [scmp_quest_right (letter_ne_hash hc hc1) (letter_ne_quest hc hc1)]
      refine iff_of_false (by omega) ?_
      rw [sectionRank_letter hc hc1, sectionRank_quest_eq]
      omega
    · rw [scmp_other (letter_ne_hash hc hc1) (letter_ne_quest hc hc1)
        (letter_ne_hash hd hd1) (letter_ne_quest hd hd1)
        (by rw [letter_not_num hc hc1]; rfl)]
      rw [sectionRank_letter hc hc1, sectionRank_letter hd hd1]
      rw [sectionTieGe, if_neg (by rw [letter_not_num hc hc1]; simp)]
      rw [lexCmp_neg x.data y.data]
      constructor
      · intro h
        exact Or.inr ⟨rfl, by omega⟩
      · rintro (h | ⟨_, h⟩)
        · omega
        · omega
    · rcases hye' : y.data with _ | ⟨d, ds⟩
      · exact absurd hye' hye
      · rw [scmp_other (letter_ne_hash hc hc1) (letter_ne_quest hc hc1)
          (num_ne_hash hyd) (num_ne_quest hyd)
          (by rw [letter_not_num hc hc1]; rfl)]
        rw [hc, hye']
        have hdc : d < c := by
          refine digit_lt_of_upper ?_ hc1
          exact hyd d (by rw [hye']; exact List.mem_cons_self d ds)
        rw [lexCmp_cons_gt hdc]
        refine iff_of_true (by omega) (Or.inl ?_)
        rw [sectionRank_letter hc hc1, sectionRank_num hye hyd]
        omega
  · rcases isSectionLabel_cases hy with hy | hy | ⟨d, hd, hd1, hd2⟩ | ⟨hye, hyd⟩
    · subst hy
      rw [scmp_hash_right (num_ne_hash hxd)]
      refine iff_of_false (by omega) ?_
      rw [sectionRank_num hxe hxd, sectionRank_hash_eq]
      omega
    · subst hy
      rw [scmp_quest_right (num_ne_hash hxd) (num_ne_quest hxd)]
      refine iff_of_false (by omega) ?_
      rw [sectionRank_num hxe hxd, sectionRank_quest_eq]
      omega
    · rcases hxe' : x.data with _ | ⟨e, es⟩
      · exact absurd hxe' hxe
      · rw [scmp_other (num_ne_hash hxd) (num_ne_quest hxd)
          (letter_ne_hash hd hd1) (letter_ne_quest hd hd1)
          (by rw [letter_not_num hd hd1]; simp)]
        rw [hd, hxe']
        have hed : e < d := by
          refine digit_lt_of_upper ?_ hd1
          exact hxd e (by rw [hxe']; exact List.mem_cons_self e es)
        rw [lexCmp_cons_lt hed]
        refine iff_of_false (by omega) ?_
        rw [sectionRank_num hxe hxd, sectionRank_letter hd hd1]
        omega
    · rw [scmp_num (num_ne_hash hxd) (num_ne_quest hxd) (num_ne_hash hyd) (num_ne_quest hyd)
        (by rw [num_isNumStr hxe hxd, num_isNumStr hye hyd]; rfl)]
      rw [sectionRank_num hxe hxd, sectionRank_num hye hyd]
      rw [sectionTieGe, if_pos ⟨num_isNumStr hxe hxd, num_isNumStr hye hyd⟩]
      constructor
      · intro h
        exact Or.inr ⟨rfl, by omega⟩
      · rintro (h | ⟨_, h⟩)
        · omega
        · omega

theorem sectionCompare_cons (a b : String) (h : sectionCompare a b < 0) :
    ¬ sectionCompare b a < 0 := by
  by_cases ha : a = "#"
  · rw [ha, scmp_hash_left] at h
    omega
  · by_cases hb : b = "#"
    · rw [hb, scmp_hash_left]
      omega
    · by_cases ha2 : a = "?"
      · rw [ha2, scmp_quest_left hb] at h
        omega
      · by_cases hb2 : b = "?"
        · rw [hb2, scmp_quest_left ha]
          omega
        · by_cases hn : (isNumStr a && isNumStr b) = true
          · rw [scmp_num ha ha2 hb hb2 hn] at h
            rw [scmp_num hb hb2 ha ha2 (by rw [Bool.and_comm] at hn; exact hn)]
            omega
          · have hn' : (isNumStr a && isNumStr b) = false := by
              cases hx : (isNumStr a && isNumStr b)
              · rfl
              · exact absurd hx hn
            rw [scmp_other ha ha2 hb hb2 hn'] at h
            rw [scmp_other hb hb2 ha ha2 (by rw [Bool.and_comm] at hn'; exact hn')]
            rw [lexCmp_neg b.data a.data]
            omega

theorem sectionGe_trans {x y z : String} (hx : isSectionLabel x = true)
    (hy : isSectionLabel y = true) (hz : isSectionLabel z = true)
    (h1 : 0 ≤ sectionCompare x y) (h2 : 0 ≤ sectionCompare y z) :
    0 ≤ sectionCompare x z := by
  rw [sectionCompare_nonneg_iff hx hy] at h1
  rw [sectionCompare_nonneg_iff hy hz] at h2
  rw [sectionCompare_nonneg_iff hx hz]
  rcases h1 with h1 | ⟨h1r, h1t⟩
  · rcases h2 with h2 | ⟨h2r, h2t⟩
    · exact Or.inl (by omega)
    · exact Or.inl (by omega)
  · rcases h2 with h2 | ⟨h2r, h2t⟩
    · exact Or.inl (by omega)
    · refine Or.inr ⟨by omega, ?_⟩
      by_cases hnx : isNumStr x = true
      · have hrx : sectionRank x = 0 := sectionRank_zero_iff.mpr hnx
        have hny : isNumStr y = true := sectionRank_zero_iff.mp (by omega)
        have hnz : isNumStr z = true := sectionRank_zero_iff.mp (by omega)
        rw [sectionTieGe, if_pos ⟨hnx, hny⟩] at h1t
        rw [sectionTieGe, if_pos ⟨hny, hnz⟩] at h2t
        rw [sectionTieGe, if_pos ⟨hnx, hnz⟩]
        omega
      · have hny : ¬ isNumStr y = true := by
          intro hny
          exact hnx (sectionRank_zero_iff.mp (by
            have := sectionRank_zero_iff.mpr hny
            omega))
        have hnz : ¬ isNumStr z = true := by
          intro hnz
          exact hny (sectionRank_zero_iff.mp (by
            have := sectionRank_zero_iff.mpr hnz
            omega))
        rw [sectionTieGe, if_neg (fun hp => hnx hp.1)] at h1t
        rw [sectionTieGe, if_neg (fun hp => hny hp.1)] at h2t
        rw [sectionTieGe, if_neg (fun hp => hnx hp.1)]
        exact lexCmp_le_trans z.data y.data x.data h2t h1t

/-- C8 (amended).  For any list of section labels (upper-case letter,
numeric, "#" or "?" buckets), the comparator sorts them with
purely-numeric labels first in numeric order, then letters in their
natural (code-point) order, then the "?" bucket, then the "#" bucket —
i.e. "?" comes before "#", and both come after all letters, while
numeric labels precede letters rather than following them (see the
counterexample against the order the claim states). -/
theorem sectionKeys_sorted (keys : List String)
    (hv : ∀ s ∈ keys, isSectionLabel s = true) :
    List.Perm (sortSectionKeys keys) keys ∧
    (sortSectionKeys keys).Pairwise (fun a b =>
      sectionRank a ≤ sectionRank b ∧
      (isNumStr a = true → isNumStr b = true → natValOf a ≤ natValOf b) ∧
      (sectionRank a = 1 → sectionRank b = 1 → lexCmp a.data b.data ≤ 0)) := by
  refine ⟨perm_stableSortBy _ keys, ?_⟩
  have hp : (sortSectionKeys keys).Pairwise
      (fun a b => decide (sectionCompare b a < 0) = false) := by
    refine pairwise_stableSortBy _ keys ?_ ?_
    · intro a _ b _ h
      simp only [decide_eq_true_eq] at h
      simp only [decide_eq_false_iff_not]
      exact sectionCompare_cons a b h
    · intro a ha b hb c hc h1 h2
      simp only [decide_eq_false_iff_not, not_lt] at h1 h2 ⊢
      exact sectionGe_trans (hv c hc) (hv b hb) (hv a ha) h2 h1
  refine hp.imp_of_mem ?_
  intro a b hma hmb h
  have hva : isSectionLabel a = true := hv a (mem_stableSortBy.mp hma)
  have hvb : isSectionLabel b = true := hv b (mem_stableSortBy.mp hmb)
  simp only [decide_eq_false_iff_not, not_lt] at h
  rw [sectionCompare_nonneg_iff hvb hva] at h
  refine ⟨?_, ?_, ?_⟩
  · rcases h with h | ⟨h, _⟩
    · omega
    · omega
  · intro hna hnb
    have hra : sectionRank a = 0 := sectionRank_zero_iff.mpr hna
    have hrb : sectionRank b = 0 := sectionRank_zero_iff.mpr hnb
    rcases h with h | ⟨_, ht⟩
    · omega
    · rw [sectionTieGe, if_pos ⟨hnb, hna⟩] at ht
      exact ht
  · intro hra hrb
    rcases h with h | ⟨_, ht⟩
    · omega
    · have hnb : ¬ isNumStr b = true := by
        intro hnb
        have := sectionRank_zero_iff.mpr hnb
        omega
      rw [sectionTieGe, if_neg (fun hp => hnb hp.1)] at ht
      exact ht

/-- C8 counterexample: the claim orders "#" before "?" and letters
first; the comparator puts "?" before "#" and numeric labels before
letters. -/
theorem sectionOrder_cex :
    sortSectionKeys ["B", "10", "#", "?"] = ["10", "B", "?", "#"] ∧
    ¬ (sortSectionKeys ["#", "?"]).Pairwise (fun a b => ¬ (a = "?" ∧ b = "#")) := by
  constructor
  · decide
  · decide

theorem sectionKeys_sorted_witness :
    (sortSectionKeys ["B", "10", "#", "?"]).Pairwise (fun a b =>
      sectionRank a ≤ sectionRank b ∧
      (isNumStr a = true → isNumStr b = true → natValOf a ≤ natValOf b) ∧
      (sectionRank a = 1 → sectionRank b = 1 → lexCmp a.data b.data ≤ 0)) :=
  (sectionKeys_sorted ["B", "10", "#", "?"] (by decide)).2

/-!
## Discogs API client (part_012): retry wrapper, pagination, stats
-/

/-- One attempt's outcome: a successful body, an HTTP error with a
response status, or a network error with no response.  The `ε` payload
stands for the thrown error object, so "propagates unchanged" is
expressible. -/
inductive Attempt (τ ε : Type)
  | ok (v : τ)
  | httpErr (status : ℕ) (e : ε)
  | netErr (e : ε)
deriving DecidableEq

/-- `shouldRetry` from the API client. -/
def shouldRetry (status : ℕ) : Bool :=
  status == 429 || (500 ≤ status && status < 600)

/-- The retry loop of `apiGet`; `rem` is `retries - k`, the number of
loop iterations left (the loop condition `attempt < retries`), and the
`rem = 0` base is the loop exit, whose `lastError ?? new Error(...)`
fallback is the payload-free error. -/
def apiGetGo (attempts : ℕ → Attempt τ ε) (retries k : ℕ) : ℕ → Except (Option ε) τ
  | 0 => Except.error none
  | rem + 1 =>
    match attempts k with
    | Attempt.ok v => Except.ok v
    | Attempt.httpErr s e =>
      if shouldRetry s && decide (k < retries - 1) then apiGetGo attempts retries (k + 1) rem
      else Except.error (some e)
    | Attempt.netErr e =>
      if decide (k < retries - 1) then apiGetGo attempts retries (k + 1) rem
      else Except.error (some e)

/-- `apiGet` from the API client. -/
def apiGet (attempts : ℕ → Attempt τ ε) (retries : ℕ) : Except (Option ε) τ :=
  apiGetGo attempts retries 0 retries

/-- The failures `apiGet` retries: 429, 5xx, or no response. -/
def retryableAttempt : Attempt τ ε → Bool
  | Attempt.ok _ => false
  | Attempt.httpErr s _ => shouldRetry s
  | Attempt.netErr _ => true

/-- The error object an attempt throws, if it fails. -/
def failPayload : Attempt τ ε → Option ε
  | Attempt.ok _ => none
  | Attempt.httpErr _ e => some e
  | Attempt.netErr e => some e

theorem apiGetGo_skip {τ ε : Type} {attempts : ℕ → Attempt τ ε} {n k : ℕ}
    (hk : k < n - 1) (hr : retryableAttempt (attempts k) = true) :
    apiGetGo attempts n k (n - k) = apiGetGo attempts n (k + 1) (n - (k + 1)) := by
  have hrem : n - k = (n - (k + 1)) + 1 := by omega
  rcases ha : attempts k with v | ⟨st, e⟩ | e
  · rw [ha] at hr
    simp [retryableAttempt] at hr
  · rw [ha] at hr
    simp only [retryableAttempt] at hr
    rw [hrem]
    simp only [apiGetGo, ha]
    rw [if_pos (by simp [hr, hk])]
  · rw [hrem]
    simp only [apiGetGo, ha]
    rw [if_pos (by simp [hk])]

theorem apiGetGo_reach {τ ε : Type} (attempts : ℕ → Attempt τ ε) (n : ℕ) :
    ∀ k, k ≤ n - 1 → (∀ j, j < k → retryableAttempt (attempts j) = true) →
      apiGetGo attempts n 0 n = apiGetGo attempts n k (n - k) := by
  intro k
  induction k with
  | zero => intro _ _; rfl
  | succ k ih =>
    intro hk hall
    have h1 : apiGetGo attempts n 0 n = apiGetGo attempts n k (n - k) :=
      ih (by omega) (fun j hj => hall j (by omega))
    rw [h1]
    exact apiGetGo_skip (by omega) (hall k (by omega))

/-- C5.  For every attempt sequence and retry budget n ≥ 1: if the first
k attempts all fail retryably (status 429, a 5xx status, or no
response), then a success at attempt k < n returns that body, a
non-retryable failure at attempt k < n throws that error object
immediately, and if all n attempts fail retryably the last attempt's
error propagates unchanged; moreover only attempts 0..n-1 are ever
consulted (at most n attempts are performed). -/
theorem apiGet_spec {τ ε : Type} (attempts : ℕ → Attempt τ ε) (n : ℕ) (hn : 1 ≤ n) :
    (∀ k, k < n → (∀ j, j < k → retryableAttempt (attempts j) = true) →
      ((∀ v, attempts k = Attempt.ok v → apiGet attempts n = Except.ok v) ∧
       (∀ s e, attempts k = Attempt.httpErr s e → shouldRetry s = false →
         apiGet attempts n = Except.error (some e)))) ∧
    ((∀ j, j < n → retryableAttempt (attempts j) = true) →
      apiGet attempts n = Except.error (failPayload (attempts (n - 1)))) ∧
    (∀ attempts2 : ℕ → Attempt τ ε, (∀ j, j < n → attempts2 j = attempts j) →
      apiGet attempts2 n = apiGet attempts n) := by
  have hgo : ∀ (a2 a1 : ℕ → Attempt τ ε) (rem k : ℕ),
      (∀ j, k ≤ j → j < k + rem → a2 j = a1 j) →
      apiGetGo a2 n k rem = apiGetGo a1 n k rem := by
    intro a2 a1 rem
    induction rem with
    | zero => intro _ _; rfl
    | succ rem ih =>
      intro k hagree
      have hk2 : a2 k = a1 k := hagree k (le_refl k) (by omega)
      rcases ha : a1 k with v | ⟨st, e⟩ | e <;> rw [ha] at hk2
      · simp only [apiGetGo, hk2, ha]
      · simp only [apiGetGo, hk2, ha]
        by_cases hc : (shouldRetry st && decide (k < n - 1)) = true
        · rw [if_pos hc, if_pos hc]
          exact ih (k + 1) (fun j hj1 hj2 => hagree j (by omega) (by omega))
        · rw [if_neg hc, if_neg hc]
      · simp only [apiGetGo, hk2, ha]
        by_cases hc : (decide (k < n - 1)) = true
        · rw [if_pos hc, if_pos hc]
          exact ih (k + 1) (fun j hj1 hj2 => hagree j (by omega) (by omega))
        · rw [if_neg hc, if_neg hc]
  refine ⟨?_, ?_, ?_⟩
  · intro k hk hall
    have hreach : apiGet attempts n = apiGetGo attempts n k (n - k) :=
      apiGetGo_reach attempts n k (by omega) hall
    have hrem : n - k = (n - k - 1) + 1 := by omega
    constructor
    · intro v hv
      rw [hreach, hrem]
      simp only [apiGetGo, hv]
    · intro st e he hsr
      rw [hreach, hrem]
      simp only [apiGetGo, he]
      rw [if_neg (by simp [hsr])]
  · intro hall
    have hreach : apiGet attempts n = apiGetGo attempts n (n - 1) (n - (n - 1)) :=
      apiGetGo_reach attempts n (n - 1) (le_refl _) (fun j hj => hall j (by omega))
    have hrem : n - (n - 1) = 1 := by omega
    have hr := hall (n - 1) (by omega)
    rcases ha : attempts (n - 1) with v | ⟨st, e⟩ | e
    · rw [ha] at hr
      simp [retryableAttempt] at hr
    · rw [hreach, hrem]
      simp only [apiGetGo, ha, failPayload]
      rw [if_neg (by simp)]
    · rw [hreach, hrem]
      simp only [apiGetGo, ha, failPayload]
      rw [if_neg (by simp)]
  · intro a2 hagree
    exact hgo a2 attempts n 0 (fun j _ hj => hagree j (by omega))

/-- Attempt sequence for the C5 witness: a network error, then a 503,
then success. -/
def c5Attempts : ℕ → Attempt ℕ ℕ := fun k =>
  if k = 0 then Attempt.netErr 7
  else if k = 1 then Attempt.httpErr 503 8
  else Attempt.ok 42

theorem apiGet_spec_witness : apiGet c5Attempts 3 = Except.ok 42 :=
  ((apiGet_spec c5Attempts 3 (by decide)).1 2 (by decide) (by decide)).1 42 (by decide)

/-- One page response: the reported page count and the item list, both
optional as in the loosely-typed payload. -/
structure PageResp (ι : Type) where
  pages : Option ℕ
  releases : Option (List ι)

/-- The loop's break test after incrementing the page counter. -/
def stopAfter (mp : Option ℕ) (total q : ℕ) : Bool :=
  (match mp with
    | some m => decide (m < q)
    | none => false) || decide (total < q)

/-- The iterations of `iterateCollection` after the first, which fixed
`totalPages`; `rem` is fuel bounding the remaining iterations (the loop
itself stops at the page bound, and the callers below always supply
enough fuel). -/
def iterRest (fetch : ℕ → PageResp ι) (mp : Option ℕ) (total : ℕ) : ℕ → ℕ → List ι
  | 0, _ => []
  | rem + 1, page =>
    (fetch page).releases.getD [] ++
      (if stopAfter mp total (page + 1) then []
       else iterRest fetch mp total rem (page + 1))

/-- `iterateCollection`: the first iteration captures
`totalPages = pagination.pages ?? 1` and yields `releases ?? []`, then
the loop continues until the page counter passes `maxPages` (when
supplied) or the captured total. -/
def iterateCollection (fetch : ℕ → PageResp ι) (mp : Option ℕ) : List ι :=
  let d := fetch 1
  let total := d.pages.getD 1
  d.releases.getD [] ++
    (if stopAfter mp total 2 then [] else iterRest fetch mp total total 2)

/-- The last page the loop requests (when at least page 1 is in bound):
the reported total capped at `maxPages`. -/
def pageBound (mp : Option ℕ) (total : ℕ) : ℕ :=
  match mp with
  | some m => min m total
  | none => total

theorem stopAfter_false_iff (mp : Option ℕ) (total q : ℕ) :
    stopAfter mp total q = false ↔ q ≤ pageBound mp total := by
  cases mp with
  | none =>
    simp [stopAfter, pageBound]
  | some m =>
    simp [stopAfter, pageBound]

theorem pageBound_le_total (mp : Option ℕ) (total : ℕ) : pageBound mp total ≤ total := by
  cases mp with
  | none => exact le_refl total
  | some m => exact min_le_right m total

theorem iterRest_eq {ι : Type} (fetch : ℕ → PageResp ι) (mp : Option ℕ) (total : ℕ) :
    ∀ rem page, page ≤ pageBound mp total → pageBound mp total - page ≤ rem →
      iterRest fetch mp total (rem + 1) page =
        (List.range' page (pageBound mp total + 1 - page)).flatMap
          (fun q => (fetch q).releases.getD []) := by
  intro rem
  induction rem with
  | zero =>
    intro page hpb hrem
    have hpage : page = pageBound mp total := by omega
    have hstop : stopAfter mp total (page + 1) = true := by
      cases hs : stopAfter mp total (page + 1)
      · rw [stopAfter_false_iff] at hs
        omega
      · rfl
    rw [iterRest, if_pos hstop]
    have hone : pageBound mp total + 1 - page = 1 := by omega
    rw [hone]
    simp [List.range']
  | succ rem ih =>
    intro page hpb hrem
    by_cases hpage : page = pageBound mp total
    · have hstop : stopAfter mp total (page + 1) = true := by
        cases hs : stopAfter mp total (page + 1)
        · rw [stopAfter_false_iff] at hs
          omega
        · rfl
      rw [iterRest, if_pos hstop]
      have hone : pageBound mp total + 1 - page = 1 := by omega
      rw [hone]
      simp [List.range']
    · have hlt : page < pageBound mp total := by omega
      have hstop : stopAfter mp total (page + 1) = false := by
        rw [stopAfter_false_iff]
        omega
      rw [iterRest, if_neg (by rw [hstop]; simp)]
      rw [ih (page + 1) (by omega) (by omega)]
      have hsplit : pageBound mp total + 1 - page = (pageBound mp total - page) + 1 := by
        omega
      rw [hsplit, List.range'_succ]
      have : pageBound mp total + 1 - (page + 1) = pageBound mp total - page := by omega
      rw [← this]
      simp

/-- C4 (amended).  `iterateCollection` yields exactly the concatenation,
in order, of the item lists of pages 1 through P, where P is
`max 1 (min (maxPages) (firstTotal))` — the page count reported by the
first page's response (never re-read; the embedding fixes it after page
1 by construction), capped at `maxPages` when supplied, except that the
first page is always fetched and yielded because the loop checks its
bounds only after consuming a page (so a cap of 0, or a reported count
of 0, still yields page 1). -/
theorem iterateCollection_spec {ι : Type} (fetch : ℕ → PageResp ι) (mp : Option ℕ) :
    iterateCollection fetch mp =
      (List.range' 1 (max 1 (pageBound mp ((fetch 1).pages.getD 1)))).flatMap
        (fun q => (fetch q).releases.getD []) := by
  by_cases h2 : stopAfter mp ((fetch 1).pages.getD 1) 2 = true
  · have hb : pageBound mp ((fetch 1).pages.getD 1) ≤ 1 := by
      cases hs : stopAfter mp ((fetch 1).pages.getD 1) 2
      · rw [hs] at h2
        cases h2
      · by_contra hgt
        have := (stopAfter_false_iff mp ((fetch 1).pages.getD 1) 2).mpr (by omega)
        rw [this] at hs
        cases hs
    have hmax : max 1 (pageBound mp ((fetch 1).pages.getD 1)) = 1 := by omega
    rw [iterateCollection]
    simp only [h2, if_pos]
    rw [hmax]
    simp [List.range']
  · have h2' : stopAfter mp ((fetch 1).pages.getD 1) 2 = false := by
      cases hs : stopAfter mp ((fetch 1).pages.getD 1) 2
      · rfl
      · exact absurd hs h2
    have hb : 2 ≤ pageBound mp ((fetch 1).pages.getD 1) :=
      (stopAfter_false_iff mp ((fetch 1).pages.getD 1) 2).mp h2'
    have hmax : max 1 (pageBound mp ((fetch 1).pages.getD 1)) =
        pageBound mp ((fetch 1).pages.getD 1) := by omega
    rw [iterateCollection]
    simp only [h2', Bool.false_eq_true, if_false]
    rw [hmax]
    have htot : (fetch 1).pages.getD 1 = ((fetch 1).pages.getD 1 - 1) + 1 := by
      have := pageBound_le_total mp ((fetch 1).pages.getD 1)
      omega
    rw [htot, iterRest_eq fetch mp _ ((fetch 1).pages.getD 1 - 1) 2 (by rw [← htot]; omega)
      (by rw [← htot]; have := pageBound_le_total mp ((fetch 1).pages.getD 1); omega)]
    rw [← htot]
    have hsplit : max 1 (pageBound mp ((fetch 1).pages.getD 1)) =
        (pageBound mp ((fetch 1).pages.getD 1) - 1) + 1 := by omega
    have hrange : List.range' 1 (pageBound mp ((fetch 1).pages.getD 1)) =
        1 :: List.range' 2 (pageBound mp ((fetch 1).pages.getD 1) - 1) := by
      have h1 : pageBound mp ((fetch 1).pages.getD 1) =
          (pageBound mp ((fetch 1).pages.getD 1) - 1) + 1 := by omega
      conv_lhs => rw [h1]
      rw [List.range'_succ]
    rw [hrange]
    have hlen : pageBound mp ((fetch 1).pages.getD 1) + 1 - 2 =
        pageBound mp ((fetch 1).pages.getD 1) - 1 := by omega
    rw [hlen]
    simp

/-- The pages the claim as stated says are fetched: 1 through
min(firstTotal, maxPages), with no first-page exception. -/
def claimIterate (fetch : ℕ → PageResp ι) (mp : Option ℕ) : List ι :=
  (List.range' 1 (pageBound mp ((fetch 1).pages.getD 1))).flatMap
    (fun q => (fetch q).releases.getD [])

/-- Fetch function for the C4 counterexample: five reported pages, page
p's item list is [p]. -/
def c4Fetch : ℕ → PageResp ℕ := fun p => ⟨some 5, some [p]⟩

/-- C4 counterexample: with a page cap of 0 the claim as stated predicts
an empty yield (pages 1..0), but the loop always fetches and yields page
1 before checking the cap. -/
theorem iterateCollection_cap_zero_cex :
    iterateCollection c4Fetch (some 0) = [1] ∧
    claimIterate c4Fetch (some 0) = ([] : List ℕ) ∧
    iterateCollection c4Fetch (some 0) ≠ claimIterate c4Fetch (some 0) := by
  refine ⟨?_, ?_, ?_⟩ <;> decide

/-- The `lowest_price` object of the stats payload. -/
structure PriceField where
  value : Option ℚ
  currency : Option String
deriving DecidableEq

/-- The marketplace stats payload. -/
structure MarketStatsResp where
  blocked_from_sale : Option Bool
  num_for_sale : Option ℕ
  lowest_price : Option PriceField
deriving DecidableEq

/-- The result type of `fetchMarketplaceStats`. -/
structure StatsOut where
  lowestPrice : Option ℚ
  numForSale : ℕ
  currency : String
deriving DecidableEq

/-- `fetchMarketplaceStats`: the whole request is wrapped in a catch-all
try/catch, so it is a total function of the request's outcome. -/
def fetchMarketplaceStats (result : Except ε MarketStatsResp) (currency : String) :
    StatsOut :=
  match result with
  | Except.error _ => ⟨none, 0, currency⟩
  | Except.ok d =>
    if d.blocked_from_sale.getD false then ⟨none, 0, currency⟩
    else
      let numForSale := d.num_for_sale.getD 0
      if numForSale = 0 then ⟨none, 0, currency⟩
      else
        match d.lowest_price with
        | none => ⟨none, numForSale, currency⟩
        | some lowest => ⟨lowest.value, numForSale, lowest.currency.getD currency⟩

/-- C10.  `fetchMarketplaceStats` never throws: every error outcome of
the underlying request — whatever error object it carries — yields
`{lowestPrice: null, numForSale: 0, currency}` with the cause discarded,
which is byte-for-byte the result of a successful response reporting
nothing for sale. -/
theorem fetchMarketplaceStats_swallows_errors {ε : Type} (e : ε) (curr : String) :
    fetchMarketplaceStats (Except.error e) curr =
      ⟨none, 0, curr⟩ ∧
    fetchMarketplaceStats (Except.ok (⟨some false, some 0, none⟩ : MarketStatsResp) :
        Except ε MarketStatsResp) curr = ⟨none, 0, curr⟩ :=
  ⟨rfl, rfl⟩

end Vinyl
